import Mathlib

/-!
Verification of the GraphCap workflow execution core.

The repository ships the documentation of its DAG workflow engine
(`lib/graphcap/dag`: `DAG`, `BaseNode`, job management) together with the
TypeScript clients that drive it, while the engine itself is described by
the specification.  The definitions below embed that engine: graph
construction and validation, topological batching, batch execution with
failure propagation, the job state machine, input validation, job
submission with a start-node override, and the client's polling-interval
rule.  Components absent from the sources are modelled from the spec and
marked as such in their doc comments.
-/

deriving instance DecidableEq for Except

namespace GraphCap

/-- A node of the workflow graph: a unique id plus the ids of the nodes
that must complete before it runs. -/
structure Node where
  id : String
  dependencies : List String
deriving Repr, DecidableEq

/-- A workflow graph: its nodes in insertion order, and the flag that is
set only by a successful validation. -/
structure Graph where
  nodes : List Node
  validated : Bool
deriving Repr, DecidableEq

/-- The ids of the graph's nodes, in insertion order. -/
def graphIds (g : Graph) : List String := g.nodes.map Node.id

/-- Node ids are unique within a graph. -/
def idsNodup (g : Graph) : Prop := (graphIds g).Nodup

/-- Every dependency id resolves to a node present in the graph. -/
def depsClosed (g : Graph) : Prop :=
  ∀ n ∈ g.nodes, ∀ d ∈ n.dependencies, d ∈ graphIds g

instance (g : Graph) : Decidable (idsNodup g) := by
  unfold idsNodup; infer_instance

instance (g : Graph) : Decidable (depsClosed g) := by
  unfold depsClosed; infer_instance

/-- The dependency list of the node with the given id (empty if absent). -/
def depsOf (g : Graph) (x : String) : List String :=
  match g.nodes.find? (fun n => n.id = x) with
  | some n => n.dependencies
  | none => []

/-- `a` depends directly on `b`. -/
def isEdge (g : Graph) (a b : String) : Bool := (depsOf g a).contains b

/-- All consecutive pairs of the list are dependency edges. -/
def chainEdges (g : Graph) : List String → Bool
  | [] => true
  | [_] => true
  | a :: b :: r => isEdge g a b && chainEdges g (b :: r)

/-- The nonempty list is a cycle of the dependency relation: consecutive
elements are edges and the last element has an edge back to the first. -/
def isCycle (g : Graph) (p : List String) : Bool :=
  match p with
  | [] => false
  | a :: r => chainEdges g (a :: r) && isEdge g ((a :: r).getLast (List.cons_ne_nil a r)) a

/-- The dependency relation of the graph contains no cycle. -/
def Acyclic (g : Graph) : Prop := ∀ p, isCycle g p = false

/-- Definition errors: raised by `add_node` and `validate`, never by the
executor. -/
inductive GraphError
  | duplicateNode (id : String)
  | unknownDependency (nodeId missingDep : String)
  | cyclicDependency (cyclePath : List String)
deriving Repr, DecidableEq

/-- Modelled from the spec: `add_node(node)` fails with `DuplicateNodeError`
if the id already exists, otherwise appends the node. -/
def add_node (g : Graph) (n : Node) : Except GraphError Graph :=
  if g.nodes.any (fun m => m.id = n.id) then .error (.duplicateNode n.id)
  else .ok { nodes := g.nodes ++ [n], validated := false }

/-- The first dependency reference, in node-insertion order, that does not
resolve to a node of the graph; paired with the referencing node's id. -/
def findUnknownDep (g : Graph) : Option (String × String) :=
  g.nodes.findSome? (fun n =>
    match n.dependencies.find? (fun d => !(graphIds g).contains d) with
    | some d => some (n.id, d)
    | none => none)

/-- A node is ready once all of its dependencies are accounted for. -/
def nodeReady (done : List String) (n : Node) : Bool :=
  n.dependencies.all (fun d => done.contains d)

/-- Modelled from the spec: the wave construction behind
`topological_batches`.  Given the ids already scheduled, it repeatedly
peels off the nodes whose dependencies are all scheduled; it returns the
waves together with the stuck remainder (nonempty exactly when progress
became impossible, i.e. on a cycle).  Each round removes at least one
node, so fuel equal to the number of remaining nodes always suffices. -/
def layersAux (fuel : Nat) (done : List String) (remaining : List Node) :
    List (List Node) × List Node :=
  match fuel with
  | 0 => ([], remaining)
  | fuel + 1 =>
    if remaining = [] then ([], [])
    else if remaining.filter (fun n => nodeReady done n) = [] then ([], remaining)
    else
      ((remaining.filter (fun n => nodeReady done n)) ::
          (layersAux fuel (done ++ (remaining.filter (fun n => nodeReady done n)).map Node.id)
            (remaining.filter (fun n => !(nodeReady done n)))).1,
        (layersAux fuel (done ++ (remaining.filter (fun n => nodeReady done n)).map Node.id)
            (remaining.filter (fun n => !(nodeReady done n)))).2)

/-- Modelled from the spec: `topological_batches()` groups node ids into
ordered waves where the nodes of wave `k` depend only on nodes of earlier
waves. -/
def topological_batches (g : Graph) : List (List String) :=
  (layersAux g.nodes.length [] g.nodes).1.map (fun b => b.map Node.id)

/-- The stuck remainder of the wave construction on the whole graph. -/
def findStuck (g : Graph) : List Node := (layersAux g.nodes.length [] g.nodes).2

theorem filter_length_split (done : List String) (remaining : List Node) :
    (remaining.filter (fun n => nodeReady done n)).length
      + (remaining.filter (fun n => !(nodeReady done n))).length
      = remaining.length := by
  simpa [List.length_append] using
    (List.filter_append_perm (fun n => nodeReady done n) remaining).length_eq

theorem rest_length_lt {done : List String} {remaining : List Node}
    (hq : remaining.filter (fun n => nodeReady done n) ≠ []) :
    (remaining.filter (fun n => !(nodeReady done n))).length < remaining.length := by
  have hlen := filter_length_split done remaining
  have hpos : 0 < (remaining.filter (fun n => nodeReady done n)).length := by
    cases hr : remaining.filter (fun n => nodeReady done n) with
    | nil => exact absurd hr hq
    | cons a l => simp [hr]
  omega

/-- A dependency of `x` that lies inside the stuck set, if any. -/
def stepInStuck (g : Graph) (stuckIds : List String) (x : String) : Option String :=
  (depsOf g x).find? (fun d => stuckIds.contains d)

/-- A walk of `fuel` steps through the stuck set, following dependency
edges; each element is followed by one of its dependencies. -/
def walkFrom (g : Graph) (stuckIds : List String) : Nat → String → List String
  | 0, x => [x]
  | k + 1, x =>
    match stepInStuck g stuckIds x with
    | some y => x :: walkFrom g stuckIds k y
    | none => [x]

/-- Cuts the first repeated element out of the walk: the returned list is
the segment from the first occurrence of the repeat up to the step where
it recurs, i.e. a cycle of the walked relation. -/
def sliceCycle : List String → List String → Option (List String)
  | _, [] => none
  | seen, x :: xs =>
    if seen.contains x then some (x :: (seen.takeWhile (fun a => a != x)).reverse)
    else sliceCycle (x :: seen) xs

/-- Modelled from the spec: the cycle reported by `CyclicDependencyError`,
recovered from the stuck remainder of the wave construction by walking
dependency edges until a node repeats. -/
def extractCycle (g : Graph) (stuck : List Node) : List String :=
  match stuck with
  | [] => []
  | n :: _ =>
    match sliceCycle [] (walkFrom g (stuck.map Node.id) stuck.length n.id) with
    | some p => p
    | none => []

/-- Modelled from the spec: `validate()` is a no-op on an already
validated graph; otherwise it checks that every dependency resolves
(failing with `UnknownDependencyError` for the first violation in
node-insertion order), then checks acyclicity (failing with
`CyclicDependencyError` carrying the full cycle), and only when both
checks pass returns the graph with `validated` set. -/
def validate (g : Graph) : Except GraphError Graph :=
  if g.validated then .ok g
  else
    match findUnknownDep g with
    | some (nid, d) => .error (.unknownDependency nid d)
    | none =>
      let st := findStuck g
      if st.isEmpty then .ok { g with validated := true }
      else .error (.cyclicDependency (extractCycle g st))

/-! ### Basic lookup lemmas -/

theorem find?_id_of_nodup :
    ∀ (l : List Node), (l.map Node.id).Nodup → ∀ n ∈ l,
      l.find? (fun m => m.id = n.id) = some n := by
  intro l
  induction l with
  | nil => intro _ n hn; simp at hn
  | cons a l ih =>
    intro hnd n hn
    simp only [List.map_cons, List.nodup_cons] at hnd
    rcases List.mem_cons.mp hn with rfl | hn
    · simp [List.find?]
    · have hne : ¬(a.id = n.id) := by
        intro he
        exact hnd.1 (he ▸ List.mem_map_of_mem Node.id hn)
      rw [List.find?_cons_of_neg _ (by simpa using hne)]
      exact ih hnd.2 n hn

theorem depsOf_mem_eq {g : Graph} (hnd : idsNodup g) {n : Node} (hn : n ∈ g.nodes) :
    depsOf g n.id = n.dependencies := by
  unfold depsOf
  rw [find?_id_of_nodup g.nodes hnd n hn]

theorem depsOf_eq_nil_of_not_mem {g : Graph} {x : String} (hx : x ∉ graphIds g) :
    depsOf g x = [] := by
  unfold depsOf
  cases hf : g.nodes.find? (fun n => n.id = x) with
  | none => rfl
  | some n =>
    have hmem := List.mem_of_find?_eq_some hf
    have hpred := List.find?_some hf
    simp only [decide_eq_true_eq] at hpred
    exact absurd (hpred ▸ List.mem_map_of_mem Node.id hmem) hx

theorem mem_graphIds_of_isEdge {g : Graph} {a b : String} (h : isEdge g a b = true) :
    a ∈ graphIds g := by
  by_contra hx
  rw [isEdge, depsOf_eq_nil_of_not_mem hx] at h
  simp at h

/-! ### Wave-construction lemmas -/

theorem layersAux_perm :
    ∀ (fuel : Nat) (done : List String) (remaining : List Node),
      ((layersAux fuel done remaining).1.flatten
        ++ (layersAux fuel done remaining).2).Perm remaining := by
  intro fuel
  induction fuel with
  | zero => intro done remaining; simp [layersAux]
  | succ fuel ih =>
    intro done remaining
    by_cases hr : remaining = []
    · subst hr; simp [layersAux]
    · by_cases hq : remaining.filter (fun n => nodeReady done n) = []
      · rw [layersAux]
        simp only [if_neg hr, if_pos hq]
        simp
      · rw [layersAux]
        simp only [if_neg hr, if_neg hq]
        simp only [List.flatten_cons, List.append_assoc]
        exact ((ih _ _).append_left _).trans
          (List.filter_append_perm (fun n => nodeReady done n) remaining)

theorem layersAux_deps :
    ∀ (fuel : Nat) (done : List String) (remaining : List Node),
      ∀ k n, n ∈ (layersAux fuel done remaining).1.getD k [] →
        ∀ d ∈ n.dependencies,
          d ∈ done ∨ d ∈ ((layersAux fuel done remaining).1.take k).flatten.map Node.id := by
  intro fuel
  induction fuel with
  | zero =>
    intro done remaining k n hn
    simp [layersAux] at hn
  | succ fuel ih =>
    intro done remaining k n hn d hd
    by_cases hr : remaining = []
    · rw [layersAux] at hn
      rw [if_pos hr] at hn
      simp at hn
    · by_cases hq : remaining.filter (fun n => nodeReady done n) = []
      · rw [layersAux] at hn
        simp only [if_neg hr, if_pos hq] at hn
        simp at hn
      · rw [layersAux] at hn ⊢
        simp only [if_neg hr, if_neg hq] at hn ⊢
        match k with
        | 0 =>
          simp only [List.getD_cons_zero] at hn
          have hready := List.of_mem_filter hn
          have := (List.all_eq_true.mp hready) d hd
          exact Or.inl (by simpa using this)
        | Nat.succ k =>
          simp only [List.getD_cons_succ] at hn
          rcases ih _ _ k n hn d hd with h | h
          · rcases List.mem_append.mp h with h | h
            · exact Or.inl h
            · refine Or.inr ?_
              simp only [List.take_succ_cons, List.flatten_cons, List.map_append]
              exact List.mem_append.mpr (Or.inl h)
          · refine Or.inr ?_
            simp only [List.take_succ_cons, List.flatten_cons, List.map_append]
            exact List.mem_append.mpr (Or.inr h)

theorem layersAux_stuck_dep (g : Graph) (hcl : depsClosed g) :
    ∀ (fuel : Nat) (done : List String) (remaining : List Node),
      remaining.length ≤ fuel →
      (∀ n ∈ remaining, n ∈ g.nodes) →
      (∀ x, x ∈ graphIds g → x ∈ done ∨ x ∈ remaining.map Node.id) →
      ∀ n ∈ (layersAux fuel done remaining).2,
        ∃ d ∈ n.dependencies, d ∈ ((layersAux fuel done remaining).2.map Node.id) := by
  intro fuel
  induction fuel with
  | zero =>
    intro done remaining hfuel hrem hpart n hn
    have hnil : remaining = [] := by
      cases remaining with
      | nil => rfl
      | cons a l => simp at hfuel
    subst hnil
    simp [layersAux] at hn
  | succ fuel ih =>
    intro done remaining hfuel hrem hpart n hn
    by_cases hr : remaining = []
    · subst hr
      simp [layersAux] at hn
    · by_cases hq : remaining.filter (fun n => nodeReady done n) = []
      · rw [layersAux] at hn ⊢
        simp only [if_neg hr, if_pos hq] at hn ⊢
        have hnotready : ¬(nodeReady done n = true) := by
          intro hb
          have : n ∈ remaining.filter (fun n => nodeReady done n) :=
            List.mem_filter.mpr ⟨hn, by simpa using hb⟩
          rw [hq] at this
          simp at this
        have hex : ∃ d ∈ n.dependencies, ¬(done.contains d = true) := by
          by_contra hall
          push_neg at hall
          exact hnotready (List.all_eq_true.mpr (by intro d hd; exact hall d hd))
        rcases hex with ⟨d, hd, hdn⟩
        refine ⟨d, hd, ?_⟩
        have hdg : d ∈ graphIds g := hcl n (hrem n hn) d hd
        rcases hpart d hdg with h | h
        · exact absurd (by simpa using h) hdn
        · exact h
      · rw [layersAux] at hn ⊢
        simp only [if_neg hr, if_neg hq] at hn ⊢
        refine ih _ _ ?_ ?_ ?_ n hn
        · have := rest_length_lt hq
          omega
        · intro m hm
          exact hrem m (List.mem_of_mem_filter hm)
        · intro x hx
          rcases hpart x hx with h | h
          · exact Or.inl (List.mem_append.mpr (Or.inl h))
          · rcases List.mem_map.mp h with ⟨m, hm, rfl⟩
            cases hready : nodeReady done m with
            | true =>
              refine Or.inl (List.mem_append.mpr (Or.inr ?_))
              exact List.mem_map_of_mem Node.id
                (List.mem_filter.mpr ⟨hm, by simpa using hready⟩)
            | false =>
              refine Or.inr ?_
              exact List.mem_map_of_mem Node.id
                (List.mem_filter.mpr ⟨hm, by simpa using hready⟩)

/-! ### Chain and cycle-extraction lemmas -/

theorem chainEdges_cons {g : Graph} {a : String} {l : List String}
    (h : chainEdges g (a :: l) = true) : chainEdges g l = true := by
  cases l with
  | nil => rfl
  | cons b t =>
    simp only [chainEdges, Bool.and_eq_true] at h
    exact h.2

theorem chainEdges_append_right {g : Graph} :
    ∀ {l₁ l₂ : List String}, chainEdges g (l₁ ++ l₂) = true → chainEdges g l₂ = true := by
  intro l₁
  induction l₁ with
  | nil => intro l₂ h; exact h
  | cons a t ih =>
    intro l₂ h
    exact ih (chainEdges_cons h)

theorem chainEdges_append_left {g : Graph} :
    ∀ {l₁ l₂ : List String}, chainEdges g (l₁ ++ l₂) = true → chainEdges g l₁ = true := by
  intro l₁
  induction l₁ with
  | nil => intro l₂ _; rfl
  | cons a t ih =>
    intro l₂ h
    cases t with
    | nil => rfl
    | cons b t' =>
      simp only [List.cons_append, chainEdges, Bool.and_eq_true] at h ⊢
      exact ⟨h.1, ih (by simpa using h.2)⟩

theorem chainEdges_junction {g : Graph} {y : String} :
    ∀ {l₁ : List String} (h : l₁ ≠ []) {l₂ : List String},
      chainEdges g (l₁ ++ y :: l₂) = true → isEdge g (l₁.getLast h) y = true := by
  intro l₁
  induction l₁ with
  | nil => intro h; exact absurd rfl h
  | cons a t ih =>
    intro _ l₂ hch
    cases t with
    | nil =>
      simp only [List.cons_append, List.nil_append, chainEdges, Bool.and_eq_true] at hch
      simpa [List.getLast] using hch.1
    | cons b t' =>
      simp only [List.cons_append, chainEdges, Bool.and_eq_true] at hch
      have := ih (List.cons_ne_nil b t') (by simpa using hch.2)
      simpa [List.getLast] using this

theorem takeWhile_ne_decomp :
    ∀ (seen : List String) (x : String), x ∈ seen →
      ∃ tl, seen = seen.takeWhile (fun a => a != x) ++ x :: tl := by
  intro seen
  induction seen with
  | nil => intro x hx; simp at hx
  | cons a s ih =>
    intro x hx
    by_cases hax : a = x
    · subst hax
      refine ⟨s, ?_⟩
      simp [List.takeWhile]
    · rcases List.mem_cons.mp hx with rfl | hx
      · exact absurd rfl hax
      · rcases ih x hx with ⟨tl, htl⟩
        refine ⟨tl, ?_⟩
        have hne : (a != x) = true := by simpa using hax
        simp only [List.takeWhile, hne]
        simpa using htl

theorem sliceCycle_none_nodup :
    ∀ (w seen : List String), sliceCycle seen w = none → seen.Nodup →
      (seen.reverse ++ w).Nodup := by
  intro w
  induction w with
  | nil =>
    intro seen _ hs
    simpa using hs
  | cons x xs ih =>
    intro seen hsl hs
    rw [sliceCycle] at hsl
    split at hsl
    · exact absurd hsl (by simp)
    · next hx =>
      have hxs : x ∉ seen := by
        intro hmem
        exact hx (by simpa using hmem)
      have := ih (x :: seen) hsl (by simp [List.nodup_cons, hxs, hs])
      simpa using this

theorem sliceCycle_sound {g : Graph} :
    ∀ (w seen p : List String), sliceCycle seen w = some p →
      chainEdges g (seen.reverse ++ w) = true → isCycle g p = true := by
  intro w
  induction w with
  | nil => intro seen p h; simp [sliceCycle] at h
  | cons x xs ih =>
    intro seen p hsl hch
    rw [sliceCycle] at hsl
    split at hsl
    · next hx =>
      have hp : p = x :: (seen.takeWhile (fun a => a != x)).reverse := by
        exact (Option.some.injEq _ _ ▸ hsl).symm
      have hxseen : x ∈ seen := by simpa using hx
      rcases takeWhile_ne_decomp seen x hxseen with ⟨tl, htl⟩
      set tw := seen.takeWhile (fun a => a != x) with htw
      have hsr : seen.reverse ++ x :: xs
          = tl.reverse ++ (x :: tw.reverse ++ x :: xs) := by
        rw [htl]
        simp
      rw [hsr] at hch
      have hch2 : chainEdges g ((x :: tw.reverse) ++ x :: xs) = true := by
        have := chainEdges_append_right
          (show chainEdges g (tl.reverse ++ (x :: tw.reverse ++ x :: xs)) = true from
            by simpa using hch)
        simpa using this
      have hchain : chainEdges g (x :: tw.reverse) = true :=
        chainEdges_append_left hch2
      have hwrap : isEdge g ((x :: tw.reverse).getLast (List.cons_ne_nil _ _)) x = true :=
        chainEdges_junction (List.cons_ne_nil _ _) hch2
      rw [hp]
      simp only [isCycle, Bool.and_eq_true]
      exact ⟨hchain, hwrap⟩
    · have := ih (x :: seen) p hsl (by simpa using hch)
      exact this

theorem stepInStuck_props {g : Graph} {sIds : List String} {x y : String}
    (h : stepInStuck g sIds x = some y) : y ∈ sIds ∧ isEdge g x y = true := by
  unfold stepInStuck at h
  have hmem := List.mem_of_find?_eq_some h
  have hpred := List.find?_some h
  refine ⟨by simpa using hpred, ?_⟩
  unfold isEdge
  simpa using hmem

theorem stepInStuck_isSome {g : Graph} {sIds : List String} {x : String}
    (hex : ∃ d ∈ depsOf g x, d ∈ sIds) : ∃ y, stepInStuck g sIds x = some y := by
  unfold stepInStuck
  rcases hex with ⟨d, hd, hds⟩
  have : (List.find? (fun d => sIds.contains d) (depsOf g x)).isSome := by
    rw [List.find?_isSome]
    exact ⟨d, hd, by simpa using hds⟩
  exact Option.isSome_iff_exists.mp this

theorem walkFrom_cons (g : Graph) (sIds : List String) (k : Nat) (x : String) :
    ∃ t, walkFrom g sIds k x = x :: t := by
  cases k with
  | zero => exact ⟨[], rfl⟩
  | succ k =>
    rw [walkFrom]
    cases h : stepInStuck g sIds x with
    | some y => exact ⟨walkFrom g sIds k y, rfl⟩
    | none => exact ⟨[], rfl⟩

theorem walkFrom_props {g : Graph} {sIds : List String}
    (hstep : ∀ x ∈ sIds, ∃ d ∈ depsOf g x, d ∈ sIds) :
    ∀ (k : Nat) (x : String), x ∈ sIds →
      (walkFrom g sIds k x).length = k + 1 ∧
      (∀ z ∈ walkFrom g sIds k x, z ∈ sIds) ∧
      chainEdges g (walkFrom g sIds k x) = true := by
  intro k
  induction k with
  | zero =>
    intro x hx
    refine ⟨rfl, ?_, rfl⟩
    intro z hz
    simp only [walkFrom, List.mem_singleton] at hz
    exact hz ▸ hx
  | succ k ih =>
    intro x hx
    rcases stepInStuck_isSome (hstep x hx) with ⟨y, hy⟩
    have hyp := stepInStuck_props hy
    rcases ih y hyp.1 with ⟨hlen, hmem, hch⟩
    have hunf : walkFrom g sIds (k + 1) x = x :: walkFrom g sIds k y := by
      rw [walkFrom, hy]
    rw [hunf]
    rcases walkFrom_cons g sIds k y with ⟨t, ht⟩
    refine ⟨by simp [hlen], ?_, ?_⟩
    · intro z hz
      rcases List.mem_cons.mp hz with rfl | hz
      · exact hx
      · exact hmem z hz
    · rw [ht]
      rw [ht] at hch
      simp only [chainEdges, Bool.and_eq_true]
      exact ⟨hyp.2, hch⟩

theorem nodup_length_le {w l : List String} (hnd : w.Nodup) (hsub : ∀ x ∈ w, x ∈ l) :
    w.length ≤ l.length := by
  have h1 : w.toFinset.card = w.length := List.toFinset_card_of_nodup hnd
  have h2 : w.toFinset ⊆ l.toFinset := by
    intro a ha
    rw [List.mem_toFinset] at ha ⊢
    exact hsub a ha
  calc w.length = w.toFinset.card := h1.symm
    _ ≤ l.toFinset.card := Finset.card_le_card h2
    _ ≤ l.length := l.toFinset_card_le

theorem findStuck_subset {g : Graph} {n : Node} (hn : n ∈ findStuck g) : n ∈ g.nodes := by
  have hperm := layersAux_perm g.nodes.length [] g.nodes
  exact hperm.mem_iff.mp (List.mem_append.mpr (Or.inr hn))

theorem findStuck_dep (g : Graph) (hnd : idsNodup g) (hcl : depsClosed g) :
    ∀ n ∈ findStuck g, ∃ d ∈ n.dependencies, d ∈ (findStuck g).map Node.id := by
  intro n hn
  exact layersAux_stuck_dep g hcl g.nodes.length [] g.nodes (Nat.le_refl _)
    (fun _ h => h) (fun x hx => Or.inr hx) n hn

theorem extractCycle_cons (g : Graph) (n : Node) (S' : List Node) :
    extractCycle g (n :: S') =
      match sliceCycle [] (walkFrom g ((n :: S').map Node.id) (n :: S').length n.id) with
      | some p => p
      | none => [] := rfl

theorem extractCycle_isCycle (g : Graph) (hnd : idsNodup g) (hcl : depsClosed g)
    (hne : findStuck g ≠ []) : isCycle g (extractCycle g (findStuck g)) = true := by
  have hstep : ∀ x ∈ (findStuck g).map Node.id, ∃ d ∈ depsOf g x, d ∈ (findStuck g).map Node.id := by
    intro x hx
    rcases List.mem_map.mp hx with ⟨n, hn, rfl⟩
    rcases findStuck_dep g hnd hcl n hn with ⟨d, hd, hds⟩
    refine ⟨d, ?_, hds⟩
    rw [depsOf_mem_eq hnd (findStuck_subset hn)]
    exact hd
  obtain ⟨n, S', hS⟩ := List.exists_cons_of_ne_nil hne
  have hnid : n.id ∈ (findStuck g).map Node.id := by
    rw [hS]; exact List.mem_map_of_mem Node.id (List.mem_cons_self n S')
  obtain ⟨hlen, hmem, hch⟩ :=
    walkFrom_props hstep (findStuck g).length n.id hnid
  cases hsl : sliceCycle []
      (walkFrom g ((findStuck g).map Node.id) (findStuck g).length n.id) with
  | none =>
    exfalso
    have hwnd := sliceCycle_none_nodup
      (walkFrom g ((findStuck g).map Node.id) (findStuck g).length n.id) [] hsl List.nodup_nil
    have hle := nodup_length_le (by simpa using hwnd) (by
      intro x hx
      exact hmem x hx)
    rw [hlen, List.length_map] at hle
    omega
  | some p =>
    have hpc : isCycle g p = true :=
      sliceCycle_sound _ [] p hsl (by simpa using hch)
    have hext : extractCycle g (findStuck g) = p := by
      conv_lhs => rw [hS]
      rw [extractCycle_cons]
      rw [show walkFrom g ((n :: S').map Node.id) (n :: S').length n.id
          = walkFrom g ((findStuck g).map Node.id) (findStuck g).length n.id from by rw [hS]]
      rw [hsl]
    rw [hext]
    exact hpc

/-! ### A cycle defeats the wave construction -/

theorem chain_succ_or_last {g : Graph} :
    ∀ (l : List String), chainEdges g l = true →
      ∀ x ∈ l, (∃ y ∈ l, isEdge g x y = true) ∨ l.getLast? = some x := by
  intro l
  induction l with
  | nil => intro _ x hx; simp at hx
  | cons a t ih =>
    intro hch x hx
    cases t with
    | nil =>
      rcases List.mem_cons.mp hx with rfl | hx
      · exact Or.inr rfl
      · simp at hx
    | cons b t' =>
      simp only [chainEdges, Bool.and_eq_true] at hch
      rcases List.mem_cons.mp hx with rfl | hx
      · exact Or.inl ⟨b, List.mem_cons_of_mem _ (List.mem_cons_self b t'), hch.1⟩
      · rcases ih hch.2 x hx with ⟨y, hy, he⟩ | hlast
        · exact Or.inl ⟨y, List.mem_cons_of_mem _ hy, he⟩
        · refine Or.inr ?_
          rw [List.getLast?_cons_cons]
          exact hlast

theorem cycle_elem_succ {g : Graph} {p : List String} (hc : isCycle g p = true) :
    ∀ x ∈ p, ∃ y ∈ p, isEdge g x y = true := by
  cases p with
  | nil => simp [isCycle] at hc
  | cons a r =>
    simp only [isCycle, Bool.and_eq_true] at hc
    intro x hx
    rcases chain_succ_or_last (a :: r) hc.1 x hx with h | hlast
    · exact h
    · have hxl : (a :: r).getLast (List.cons_ne_nil a r) = x := by
        have := List.getLast?_eq_getLast (a :: r) (List.cons_ne_nil a r)
        rw [this] at hlast
        exact Option.some.inj hlast
      refine ⟨a, List.mem_cons_self a r, ?_⟩
      rw [← hxl]
      exact hc.2

theorem cycle_mem_graphIds {g : Graph} {p : List String} (hc : isCycle g p = true) :
    ∀ x ∈ p, x ∈ graphIds g := by
  intro x hx
  rcases cycle_elem_succ hc x hx with ⟨y, _, he⟩
  exact mem_graphIds_of_isEdge he

theorem layersAux_cycle_stuck (g : Graph) (hnd : idsNodup g) {p : List String}
    (hc : isCycle g p = true) :
    ∀ (fuel : Nat) (done : List String) (remaining : List Node),
    (∀ n ∈ remaining, n ∈ g.nodes) →
    (∀ x ∈ p, x ∉ done) →
    (∀ x ∈ p, x ∈ remaining.map Node.id) →
    (layersAux fuel done remaining).2 ≠ [] := by
  have hpne : p ≠ [] := by
    intro hp
    rw [hp] at hc
    simp [isCycle] at hc
  have hrem_ne : ∀ (remaining : List Node),
      (∀ x ∈ p, x ∈ remaining.map Node.id) → remaining ≠ [] := by
    intro remaining hin hnil
    subst hnil
    obtain ⟨x, hx⟩ := List.exists_mem_of_ne_nil p hpne
    have := hin x hx
    simp at this
  intro fuel
  induction fuel with
  | zero =>
    intro done remaining hrem hdone hin
    rw [layersAux]
    exact hrem_ne remaining hin
  | succ fuel ih =>
    intro done remaining hrem hdone hin
    have hr : remaining ≠ [] := hrem_ne remaining hin
    by_cases hq : remaining.filter (fun n => nodeReady done n) = []
    · rw [layersAux]
      simp only [if_neg hr, if_pos hq]
      exact hr
    · rw [layersAux]
      simp only [if_neg hr, if_neg hq]
      have hnotready : ∀ x ∈ p, ∀ m ∈ remaining, m.id = x → nodeReady done m ≠ true := by
        intro x hx m hm hmid hready
        rcases cycle_elem_succ hc x hx with ⟨y, hy, he⟩
        have hdeps : y ∈ m.dependencies := by
          have : depsOf g x = m.dependencies := by
            rw [← hmid]
            exact depsOf_mem_eq hnd (hrem m hm)
          rw [isEdge, this] at he
          simpa using he
        have : y ∈ done := by
          have := List.all_eq_true.mp hready y hdeps
          simpa using this
        exact hdone y hy this
      refine ih _ _ ?_ ?_ ?_
      · intro m hm
        exact hrem m (List.mem_of_mem_filter hm)
      · intro x hx
        intro hmem
        rcases List.mem_append.mp hmem with h | h
        · exact hdone x hx h
        · rcases List.mem_map.mp h with ⟨m, hm, hmid⟩
          have hmr := List.mem_of_mem_filter hm
          have hready : nodeReady done m = true := by simpa using List.of_mem_filter hm
          exact hnotready x hx m hmr hmid hready
      · intro x hx
        rcases List.mem_map.mp (hin x hx) with ⟨m, hm, hmid⟩
        cases hready : nodeReady done m with
        | true => exact absurd hready (hnotready x hx m hm hmid)
        | false =>
          refine List.mem_map.mpr ⟨m, List.mem_filter.mpr ⟨hm, by simpa using hready⟩, hmid⟩

theorem findStuck_ne_nil_of_cycle (g : Graph) (hnd : idsNodup g) {p : List String}
    (hc : isCycle g p = true) : findStuck g ≠ [] := by
  refine layersAux_cycle_stuck g hnd hc g.nodes.length [] g.nodes (fun _ h => h) ?_ ?_
  · intro x _ h
    simp at h
  · intro x hx
    exact cycle_mem_graphIds hc x hx

/-! ### Validation verdicts -/

theorem findUnknownDep_eq_none_of_closed {g : Graph} (hcl : depsClosed g) :
    findUnknownDep g = none := by
  unfold findUnknownDep
  rw [List.findSome?_eq_none_iff]
  intro n hn
  cases hf : n.dependencies.find? (fun d => !(graphIds g).contains d) with
  | none => rfl
  | some d =>
    have hmem := List.mem_of_find?_eq_some hf
    have hpred := List.find?_some hf
    have : d ∈ graphIds g := hcl n hn d hmem
    simp [this] at hpred

theorem findStuck_eq_nil_of_acyclic (g : Graph) (hnd : idsNodup g) (hcl : depsClosed g)
    (hac : Acyclic g) : findStuck g = [] := by
  by_contra hne
  have := extractCycle_isCycle g hnd hcl hne
  rw [hac (extractCycle g (findStuck g))] at this
  simp at this

theorem validate_ok_of_acyclic (g : Graph) (hnd : idsNodup g) (hcl : depsClosed g)
    (hac : Acyclic g) : ∃ g', validate g = .ok g' := by
  unfold validate
  by_cases hv : g.validated
  · exact ⟨g, by simp [hv]⟩
  · refine ⟨{ g with validated := true }, ?_⟩
    simp only [hv, if_false, Bool.false_eq_true]
    rw [findUnknownDep_eq_none_of_closed hcl]
    have hst := findStuck_eq_nil_of_acyclic g hnd hcl hac
    simp [hst]

theorem validate_cyclic (g : Graph) (hnd : idsNodup g) (hcl : depsClosed g)
    (hvf : g.validated = false) {p : List String} (hc : isCycle g p = true) :
    ∃ q, validate g = .error (.cyclicDependency q) ∧ isCycle g q = true := by
  have hne := findStuck_ne_nil_of_cycle g hnd hc
  refine ⟨extractCycle g (findStuck g), ?_, extractCycle_isCycle g hnd hcl hne⟩
  unfold validate
  simp only [hvf, Bool.false_eq_true, if_false]
  rw [findUnknownDep_eq_none_of_closed hcl]
  have : (findStuck g).isEmpty = false := by
    cases hS : findStuck g with
    | nil => exact absurd hS hne
    | cons a l => rfl
  simp [this]

/-! ### Batch-level (id) lemmas -/

theorem getD_map_ids :
    ∀ (l : List (List Node)) (k : Nat),
      (l.map (fun b => b.map Node.id)).getD k [] = (l.getD k []).map Node.id := by
  intro l
  induction l with
  | nil => intro k; simp
  | cons b l ih =>
    intro k
    cases k with
    | zero => rfl
    | succ k => exact ih k

theorem flatten_map_ids :
    ∀ (l : List (List Node)),
      (l.map (fun b => b.map Node.id)).flatten = l.flatten.map Node.id := by
  intro l
  induction l with
  | nil => simp
  | cons b l ih =>
    rw [List.map_cons, List.flatten_cons, List.flatten_cons, List.map_append, ih]

theorem mem_flatten_of_mem_getD {α : Type} {l : List (List α)} {k : Nat} {x : α}
    (h : x ∈ l.getD k []) : x ∈ l.flatten := by
  by_cases hk : k < l.length
  · rw [List.getD_eq_getElem l [] hk] at h
    exact List.mem_flatten.mpr ⟨l[k], List.getElem_mem hk, h⟩
  · rw [List.getD_eq_default l [] (by omega)] at h
    simp at h

theorem batches_flatten_perm (g : Graph) (hst : findStuck g = []) :
    ((topological_batches g).flatten).Perm (graphIds g) := by
  unfold topological_batches
  rw [flatten_map_ids]
  have hperm := layersAux_perm g.nodes.length [] g.nodes
  rw [show (layersAux g.nodes.length [] g.nodes).2 = findStuck g from rfl, hst] at hperm
  rw [List.append_nil] at hperm
  exact hperm.map Node.id

theorem batch_mem_nodes {g : Graph} {k : Nat} {n : Node}
    (hn : n ∈ (layersAux g.nodes.length [] g.nodes).1.getD k []) : n ∈ g.nodes := by
  have h1 : n ∈ (layersAux g.nodes.length [] g.nodes).1.flatten := mem_flatten_of_mem_getD hn
  have hperm := layersAux_perm g.nodes.length [] g.nodes
  exact hperm.mem_iff.mp (List.mem_append.mpr (Or.inl h1))

theorem batches_deps_in_take {g : Graph} (hnd : idsNodup g) {x : String} {k : Nat}
    (hx : x ∈ (topological_batches g).getD k []) :
    ∀ d ∈ depsOf g x, d ∈ ((topological_batches g).take k).flatten := by
  intro d hd
  unfold topological_batches at hx ⊢
  rw [getD_map_ids] at hx
  rcases List.mem_map.mp hx with ⟨n, hn, rfl⟩
  have hnode : n ∈ g.nodes := batch_mem_nodes hn
  rw [depsOf_mem_eq hnd hnode] at hd
  rcases layersAux_deps g.nodes.length [] g.nodes k n hn d hd with h | h
  · simp at h
  · rw [← List.map_take, flatten_map_ids]
    exact h

theorem getD_index_lt_of_take {l : List (List String)} (hnd : l.flatten.Nodup)
    {d : String} {j k : Nat} (hj : d ∈ l.getD j []) (hk : d ∈ (l.take k).flatten) :
    j < k := by
  by_contra hge
  push_neg at hge
  have hjlen : j < l.length := by
    by_contra hbig
    rw [List.getD_eq_default l [] (by omega)] at hj
    simp at hj
  have hdrop : d ∈ (l.drop k).flatten := by
    refine List.mem_flatten.mpr ⟨l[j], ?_, ?_⟩
    · have hjk : j - k < (l.drop k).length := by
        rw [List.length_drop]
        omega
      have he : (l.drop k)[j - k] = l[j] := by
        rw [List.getElem_drop l]
        congr 1
        omega
      rw [← he]
      exact List.getElem_mem hjk
    · rw [List.getD_eq_getElem l [] hjlen] at hj
      exact hj
  have hsplit : l.flatten = (l.take k).flatten ++ (l.drop k).flatten := by
    rw [← List.flatten_append, List.take_append_drop]
  rw [hsplit] at hnd
  have hdisj := List.disjoint_of_nodup_append hnd
  exact hdisj hk hdrop

/-! ### Rank functions certify acyclicity -/

theorem rank_lt_of_isEdge {g : Graph} {f : String → Nat}
    (hf : ∀ n ∈ g.nodes, ∀ d ∈ n.dependencies, f d < f n.id)
    {x y : String} (he : isEdge g x y = true) : f y < f x := by
  rw [isEdge] at he
  unfold depsOf at he
  cases hfind : g.nodes.find? (fun n => n.id = x) with
  | none => rw [hfind] at he; simp at he
  | some n =>
    rw [hfind] at he
    have hmem := List.mem_of_find?_eq_some hfind
    have hpred := List.find?_some hfind
    simp only [decide_eq_true_eq] at hpred
    have : y ∈ n.dependencies := by simpa using he
    have := hf n hmem y this
    rw [hpred] at this
    exact this

theorem chain_rank_le {g : Graph} {f : String → Nat}
    (hf : ∀ n ∈ g.nodes, ∀ d ∈ n.dependencies, f d < f n.id) :
    ∀ (l : List String) (a : String), chainEdges g (a :: l) = true →
      f ((a :: l).getLast (List.cons_ne_nil a l)) ≤ f a := by
  intro l
  induction l with
  | nil =>
    intro a _
    simp [List.getLast]
  | cons b t ih =>
    intro a hch
    simp only [chainEdges, Bool.and_eq_true] at hch
    have h1 : f b < f a := rank_lt_of_isEdge hf hch.1
    have h2 := ih b hch.2
    have hgl : (a :: b :: t).getLast (List.cons_ne_nil a (b :: t))
        = (b :: t).getLast (List.cons_ne_nil b t) := by
      simp [List.getLast]
    rw [hgl]
    omega

theorem Acyclic_of_rank (g : Graph) (f : String → Nat)
    (hf : ∀ n ∈ g.nodes, ∀ d ∈ n.dependencies, f d < f n.id) : Acyclic g := by
  intro p
  cases p with
  | nil => rfl
  | cons a r =>
    cases hc : isCycle g (a :: r) with
    | false => rfl
    | true =>
      exfalso
      simp only [isCycle, Bool.and_eq_true] at hc
      have h1 := chain_rank_le hf r a hc.1
      have h2 := rank_lt_of_isEdge hf hc.2
      omega

/-! ### Sample graphs -/

/-- The concrete pipeline of the spec: `load`, `resize` (depends on
`load`), `export` (depends on `resize`). -/
def pipelineGraph : Graph :=
  { nodes := [⟨"load", []⟩, ⟨"resize", ["load"]⟩, ⟨"export", ["resize"]⟩],
    validated := false }

/-- A three-node cyclic definition: `a` depends on `c`, `b` on `a`, `c` on `b`. -/
def cyclicGraph : Graph :=
  { nodes := [⟨"a", ["c"]⟩, ⟨"b", ["a"]⟩, ⟨"c", ["b"]⟩], validated := false }

/-- A definition with a dangling dependency reference. -/
def unknownDepGraph : Graph :=
  { nodes := [⟨"a", []⟩, ⟨"b", ["zz"]⟩], validated := false }

/-- A rank certificate for the pipeline. -/
def pipelineRank : String → Nat :=
  fun s => if s = "load" then 0 else if s = "resize" then 1 else 2

/-! ## C1 -/

/-- C1: for every acyclic workflow definition (node ids unique and every
dependency resolving, as the data model requires), `validate()` succeeds,
`topological_batches()` covers exactly the node set with each node id in
exactly one batch (the flattened batches are a permutation of the node
ids), and every node's batch index is strictly greater than the batch
index of each of its dependencies. -/
theorem c1_acyclic_validate_and_batches (g : Graph)
    (hnd : idsNodup g) (hcl : depsClosed g) (hac : Acyclic g) :
    (∃ g', validate g = .ok g') ∧
    ((topological_batches g).flatten).Perm (graphIds g) ∧
    (∀ x k j, x ∈ (topological_batches g).getD k [] →
      ∀ d ∈ depsOf g x, d ∈ (topological_batches g).getD j [] → j < k) := by
  have hst := findStuck_eq_nil_of_acyclic g hnd hcl hac
  refine ⟨validate_ok_of_acyclic g hnd hcl hac, batches_flatten_perm g hst, ?_⟩
  intro x k j hx d hd hdj
  have htake := batches_deps_in_take hnd hx d hd
  have hflnd : (topological_batches g).flatten.Nodup :=
    ((batches_flatten_perm g hst).nodup_iff).mpr hnd
  exact getD_index_lt_of_take hflnd hdj htake

/-- Witness for C1 at the load → resize → export pipeline. -/
theorem c1_witness :
    (∃ g', validate pipelineGraph = .ok g') ∧
    ((topological_batches pipelineGraph).flatten).Perm (graphIds pipelineGraph) ∧
    (∀ x k j, x ∈ (topological_batches pipelineGraph).getD k [] →
      ∀ d ∈ depsOf pipelineGraph x, d ∈ (topological_batches pipelineGraph).getD j [] → j < k) :=
  c1_acyclic_validate_and_batches pipelineGraph (by decide) (by decide)
    (Acyclic_of_rank pipelineGraph pipelineRank (by decide))

/-! ## C3 -/

theorem findSome?_append_none {α β : Type} {f : α → Option β} :
    ∀ {l₁ : List α} (l₂ : List α), (∀ m ∈ l₁, f m = none) →
      (l₁ ++ l₂).findSome? f = l₂.findSome? f := by
  intro l₁
  induction l₁ with
  | nil => intro l₂ _; rfl
  | cons a t ih =>
    intro l₂ h
    rw [List.cons_append, List.findSome?_cons, h a (List.mem_cons_self a t)]
    exact ih l₂ (fun m hm => h m (List.mem_cons_of_mem a hm))

theorem find?_first {α : Type} {p : α → Bool} :
    ∀ {l₁ : List α} {d : α} (l₂ : List α), (∀ e ∈ l₁, p e = false) → p d = true →
      (l₁ ++ d :: l₂).find? p = some d := by
  intro l₁
  induction l₁ with
  | nil =>
    intro d l₂ _ hd
    rw [List.nil_append, List.find?_cons_of_pos _ hd]
  | cons a t ih =>
    intro d l₂ h hd
    rw [List.cons_append, List.find?_cons_of_neg _ (by simp [h a (List.mem_cons_self a t)])]
    exact ih l₂ (fun e he => h e (List.mem_cons_of_mem a he)) hd

theorem depsClosed_of_findUnknownDep_none {g : Graph}
    (h : findUnknownDep g = none) : depsClosed g := by
  unfold findUnknownDep at h
  rw [List.findSome?_eq_none_iff] at h
  intro n hn d hd
  have hm := h n hn
  cases hf : n.dependencies.find? (fun d => !(graphIds g).contains d) with
  | some e => rw [hf] at hm; simp at hm
  | none =>
    rw [List.find?_eq_none] at hf
    have := hf d hd
    simpa using this

/-- C3: `validate()` checks unknown dependencies before cycles, failing
with `UnknownDependencyError` for the first dangling reference in
node-insertion order; on a closed cyclic graph it fails with a
`CyclicDependencyError` whose path is a genuine full cycle of the
dependency relation; and the `validated` flag becomes true only when
both checks pass. -/
theorem c3_validate_order_and_errors (g : Graph) :
    (g.validated = false →
      ∀ l₁ n l₂ d₁ d d₂,
        g.nodes = l₁ ++ n :: l₂ →
        (∀ m ∈ l₁, ∀ e ∈ m.dependencies, e ∈ graphIds g) →
        n.dependencies = d₁ ++ d :: d₂ →
        (∀ e ∈ d₁, e ∈ graphIds g) →
        d ∉ graphIds g →
        validate g = .error (.unknownDependency n.id d)) ∧
    (g.validated = false → idsNodup g → depsClosed g →
      ∀ p, isCycle g p = true →
      ∃ q, validate g = .error (.cyclicDependency q) ∧ isCycle g q = true) ∧
    (∀ g', validate g = .ok g' →
      g'.validated = true ∧
      (g.validated = false → idsNodup g → depsClosed g ∧ Acyclic g)) := by
  refine ⟨?_, ?_, ?_⟩
  · intro hvf l₁ n l₂ d₁ d d₂ hnodes hl₁ hdeps hd₁ hd
    have hfu : findUnknownDep g = some (n.id, d) := by
      unfold findUnknownDep
      conv_lhs => rw [hnodes]
      rw [findSome?_append_none (n :: l₂) (by
        intro m hm
        have hmk : m.dependencies.find? (fun e => !(graphIds g).contains e) = none := by
          rw [List.find?_eq_none]
          intro e he
          simp [hl₁ m hm e he]
        simp only [hmk])]
      rw [List.findSome?_cons]
      have hfn : n.dependencies.find? (fun e => !(graphIds g).contains e) = some d := by
        rw [hdeps]
        refine find?_first d₂ ?_ ?_
        · intro e he
          simp [hd₁ e he]
        · simpa using hd
      simp only [hfn]
    unfold validate
    simp only [hvf, Bool.false_eq_true, if_false]
    rw [hfu]
  · intro hvf hnd hcl p hp
    exact validate_cyclic g hnd hcl hvf hp
  · intro g' hok
    unfold validate at hok
    by_cases hv : g.validated
    · rw [if_pos hv] at hok
      have : g = g' := by
        simpa using hok
      subst this
      constructor
      · exact hv
      · intro hvf
        rw [hv] at hvf
        simp at hvf
    · rw [if_neg hv] at hok
      cases hfu : findUnknownDep g with
      | some pr =>
        rw [hfu] at hok
        cases pr with
        | mk a b => simp at hok
      | none =>
        rw [hfu] at hok
        by_cases hie : (findStuck g).isEmpty
        · rw [if_pos hie] at hok
          have hg' : g' = { g with validated := true } := by
            simpa using hok.symm
          subst hg'
          refine ⟨rfl, ?_⟩
          intro _ hnd
          refine ⟨depsClosed_of_findUnknownDep_none hfu, ?_⟩
          intro p
          cases hp : isCycle g p with
          | false => rfl
          | true =>
            exfalso
            have hne := findStuck_ne_nil_of_cycle g hnd hp
            rw [List.isEmpty_iff] at hie
            exact hne hie
        · rw [if_neg hie] at hok
          simp at hok

/-- The pipeline graph after a successful validation. -/
def pipelineValidated : Graph :=
  { nodes := pipelineGraph.nodes, validated := true }

/-- Witness for C3: the first dangling reference is reported on
`unknownDepGraph`, a full cycle is reported on `cyclicGraph`, and
validation of the pipeline sets the flag with both checks passing. -/
theorem c3_witness :
    validate unknownDepGraph = .error (.unknownDependency "b" "zz") ∧
    (∃ q, validate cyclicGraph = .error (.cyclicDependency q) ∧ isCycle cyclicGraph q = true) ∧
    (pipelineValidated.validated = true ∧ depsClosed pipelineGraph ∧ Acyclic pipelineGraph) := by
  refine ⟨?_, ?_, ?_⟩
  · exact (c3_validate_order_and_errors unknownDepGraph).1 (by decide)
      [⟨"a", []⟩] ⟨"b", ["zz"]⟩ [] [] "zz" [] (by decide) (by decide)
      (by decide) (by decide) (by decide)
  · exact (c3_validate_order_and_errors cyclicGraph).2.1 (by decide) (by decide)
      (by decide) ["a", "c", "b"] (by decide)
  · have h := (c3_validate_order_and_errors pipelineGraph).2.2 pipelineValidated (by decide)
    have h2 := h.2 (by decide) (by decide)
    exact ⟨h.1, h2⟩

/-! ## C7 -/

/-- A second construction of the same pipeline definition. -/
def pipelineGraphCopy : Graph :=
  { nodes := [⟨"load", []⟩, ⟨"resize", ["load"]⟩, ⟨"export", ["resize"]⟩],
    validated := false }

/-- C7: validation is deterministic — the verdict depends only on the
graph's definition (its nodes) and flag, so two graphs built from the
same workflow definition get the same verdict — and idempotent: a call
on an already validated graph is a no-op returning the graph unchanged,
and after a successful validation a further call is such a no-op. -/
theorem c7_validate_idempotent_deterministic :
    (∀ g₁ g₂ : Graph, g₁.nodes = g₂.nodes → g₁.validated = g₂.validated →
      validate g₁ = validate g₂) ∧
    (∀ g : Graph, g.validated = true → validate g = .ok g) ∧
    (∀ g g' : Graph, validate g = .ok g' → validate g' = .ok g') := by
  have hflag : ∀ g : Graph, g.validated = true → validate g = .ok g := by
    intro g hv
    unfold validate
    rw [if_pos hv]
  refine ⟨?_, hflag, ?_⟩
  · intro g₁ g₂ hn hv
    cases g₁
    cases g₂
    simp only at hn hv
    rw [hn, hv]
  · intro g g' hok
    unfold validate at hok
    by_cases hv : g.validated
    · rw [if_pos hv] at hok
      have hg : g = g' := by simpa using hok
      subst hg
      exact hflag g hv
    · rw [if_neg hv] at hok
      cases hfu : findUnknownDep g with
      | some pr =>
        rw [hfu] at hok
        cases pr with
        | mk a b => simp at hok
      | none =>
        rw [hfu] at hok
        by_cases hie : (findStuck g).isEmpty
        · rw [if_pos hie] at hok
          have hg' : g' = { g with validated := true } := by simpa using hok.symm
          subst hg'
          exact hflag _ rfl
        · rw [if_neg hie] at hok
          simp at hok

/-- Witness for C7: two constructions of the pipeline definition get the
same verdict, and re-validating the validated pipeline is a no-op. -/
theorem c7_witness :
    validate pipelineGraph = validate pipelineGraphCopy ∧
    validate pipelineValidated = .ok pipelineValidated := by
  constructor
  · exact c7_validate_idempotent_deterministic.1 pipelineGraph pipelineGraphCopy rfl rfl
  · exact c7_validate_idempotent_deterministic.2.2 pipelineGraph pipelineValidated (by decide)

/-! ## C4 -/

/-- Modelled from the spec: `validate_inputs(**kwargs)` checks the
presence of every required parameter of the node's schema, failing with a
`MissingParameterError` (a `ValueError` whose message names the first
missing parameter, per the repo's node guide); unknown extra parameters
are ignored. -/
def validate_inputs (required supplied : List String) : Except String Unit :=
  match required.find? (fun p => !supplied.contains p) with
  | some p => .error ("Missing required parameter: " ++ p)
  | none => .ok ()

theorem find?_congr_on {α : Type} {p q : α → Bool} :
    ∀ {l : List α}, (∀ x ∈ l, p x = q x) → l.find? p = l.find? q := by
  intro l
  induction l with
  | nil => intro _; rfl
  | cons a t ih =>
    intro h
    rw [List.find?_cons, List.find?_cons, h a (List.mem_cons_self a t)]
    cases q a with
    | true => rfl
    | false => exact ih (fun x hx => h x (List.mem_cons_of_mem a hx))

/-- C4: input validation succeeds exactly when every required parameter
is supplied; on failure the error names exactly the first missing
required parameter in schema order; and extra parameters outside the
schema never change the verdict. -/
theorem c4_validate_inputs_correct (required supplied : List String) :
    (validate_inputs required supplied = .ok () ↔ ∀ p ∈ required, p ∈ supplied) ∧
    (∀ l₁ p l₂, required = l₁ ++ p :: l₂ → (∀ q ∈ l₁, q ∈ supplied) → p ∉ supplied →
      validate_inputs required supplied = .error ("Missing required parameter: " ++ p)) ∧
    (∀ extra, (∀ e ∈ extra, e ∉ required) →
      validate_inputs required (supplied ++ extra) = validate_inputs required supplied) := by
  refine ⟨?_, ?_, ?_⟩
  · unfold validate_inputs
    constructor
    · intro h p hp
      cases hf : required.find? (fun p => !supplied.contains p) with
      | some q => rw [hf] at h; simp at h
      | none =>
        rw [List.find?_eq_none] at hf
        have := hf p hp
        simpa using this
    · intro h
      have hf : required.find? (fun p => !supplied.contains p) = none := by
        rw [List.find?_eq_none]
        intro p hp
        simp [h p hp]
      rw [hf]
  · intro l₁ p l₂ hreq hl₁ hp
    unfold validate_inputs
    have hf : required.find? (fun q => !supplied.contains q) = some p := by
      rw [hreq]
      refine find?_first l₂ ?_ ?_
      · intro e he
        simp [hl₁ e he]
      · simpa using hp
    rw [hf]
  · intro extra hextra
    unfold validate_inputs
    have : required.find? (fun p => !(supplied ++ extra).contains p)
        = required.find? (fun p => !supplied.contains p) := by
      refine find?_congr_on ?_
      intro x hx
      have hxe : x ∉ extra := fun hmem => hextra x hmem hx
      by_cases hxs : x ∈ supplied
      · simp [hxs]
      · have : x ∉ supplied ++ extra := by
          intro hmem
          rcases List.mem_append.mp hmem with h | h
          · exact hxs h
          · exact hxe h
        simp [hxs, this]
    rw [this]

/-- Witness for C4 on the node guide's example: `input_param` required,
only `multiplier` supplied. -/
theorem c4_witness :
    validate_inputs ["input_param"] ["multiplier"]
      = .error ("Missing required parameter: " ++ "input_param") ∧
    validate_inputs ["input_param"] (["input_param"] ++ ["multiplier"])
      = validate_inputs ["input_param"] ["input_param"] := by
  constructor
  · exact (c4_validate_inputs_correct ["input_param"] ["multiplier"]).2.1
      [] "input_param" [] rfl (by intro q hq; simp at hq) (by decide)
  · exact (c4_validate_inputs_correct ["input_param"] ["input_param"]).2.2
      ["multiplier"] (by decide)

/-! ## C10 -/

/-- The job record as the client's status component reads it. -/
structure JobRecord where
  status : String
  error_message : Option String
deriving Repr, DecidableEq

/-- The client's polling rule (`refetchInterval` in the job status
component): poll every 2000 ms while the fetched record's status is
`PENDING` or `RUNNING`, otherwise `false` (stop polling, here `none`). -/
def jobRefetchInterval (data : Option JobRecord) : Option Nat :=
  match data with
  | some r => if r.status = "PENDING" ∨ r.status = "RUNNING" then some 2000 else none
  | none => none

/-- C10: for every fetched job record the polling-interval function
returns 2000 ms exactly when the status is `PENDING` or `RUNNING`, and
`false` (no further polling) for every other status value. -/
theorem c10_polling_interval (r : JobRecord) :
    (jobRefetchInterval (some r) = some 2000 ↔
      (r.status = "PENDING" ∨ r.status = "RUNNING")) ∧
    (jobRefetchInterval (some r) = none ↔
      ¬(r.status = "PENDING" ∨ r.status = "RUNNING")) := by
  have hred : jobRefetchInterval (some r)
      = if r.status = "PENDING" ∨ r.status = "RUNNING" then some 2000 else none := rfl
  rw [hred]
  by_cases h : r.status = "PENDING" ∨ r.status = "RUNNING"
  · rw [if_pos h]
    constructor
    · exact ⟨fun _ => h, fun _ => rfl⟩
    · constructor
      · intro hn
        simp at hn
      · intro hn
        exact absurd h hn
  · rw [if_neg h]
    constructor
    · constructor
      · intro hn
        simp at hn
      · intro hp
        exact absurd hp h
    · exact ⟨fun _ => h, fun _ => rfl⟩

/-! ## C5: the job state machine -/

/-- The five job lifecycle statuses. -/
inductive JobStatus
  | pending
  | running
  | completed
  | failed
  | cancelled
deriving Repr, DecidableEq

/-- The three terminal statuses. -/
def JobStatus.isTerminal : JobStatus → Bool
  | .completed => true
  | .failed => true
  | .cancelled => true
  | _ => false

/-- Modelled from the spec: the allowed transitions
`PENDING → RUNNING → {COMPLETED, FAILED, CANCELLED}`. -/
def jobStep : JobStatus → JobStatus → Bool
  | .pending, .running => true
  | .running, .completed => true
  | .running, .failed => true
  | .running, .cancelled => true
  | _, _ => false

/-- A node output: a flat result mapping. -/
abbrev NodeOutput := List (String × String)

/-- Modelled from the spec: the job record the executor drives — status,
the structured error (node id and message), and the accumulated results. -/
structure JobState where
  status : JobStatus
  error : Option (String × String)
  results : List (String × NodeOutput)
deriving Repr, DecidableEq

/-- A job as created on submission. -/
def initialJob : JobState :=
  { status := .pending, error := none, results := [] }

/-- The updates the executor can apply to a job. -/
inductive JobUpdate
  | start
  | complete (res : List (String × NodeOutput))
  | fail (nodeId msg : String)
  | cancel
deriving Repr, DecidableEq

/-- The status an update drives the job towards. -/
def targetStatus : JobUpdate → JobStatus
  | .start => .running
  | .complete _ => .completed
  | .fail _ _ => .failed
  | .cancel => .cancelled

/-- Modelled from the spec: applying one lifecycle update; refused
(`none`) unless the transition is allowed by the state machine. Only a
failure sets the structured error. -/
def applyUpdate (j : JobState) (u : JobUpdate) : Option JobState :=
  if jobStep j.status (targetStatus u) then
    some (match u with
      | .start => { j with status := .running }
      | .complete r => { j with status := .completed, results := r }
      | .fail nid msg => { j with status := .failed, error := some (nid, msg) }
      | .cancel => { j with status := .cancelled })
  else none

/-- Applying a sequence of updates. -/
def runUpdates (j : JobState) : List JobUpdate → Option JobState
  | [] => some j
  | u :: us =>
    match applyUpdate j u with
    | some j' => runUpdates j' us
    | none => none

/-- The statuses visited by a sequence of updates, starting status
included. -/
def statusTrace (j : JobState) : List JobUpdate → Option (List JobStatus)
  | [] => some [j.status]
  | u :: us =>
    match applyUpdate j u with
    | some j' => (statusTrace j' us).map (fun t => j.status :: t)
    | none => none

/-- Progress of a status along the lifecycle. -/
def jobRank : JobStatus → Nat
  | .pending => 0
  | .running => 1
  | _ => 2

theorem jobStep_rank_lt {s t : JobStatus} (h : jobStep s t = true) :
    jobRank s < jobRank t := by
  cases s <;> cases t <;> simp_all [jobStep, jobRank]

theorem applyUpdate_status {j j' : JobState} {u : JobUpdate}
    (h : applyUpdate j u = some j') :
    jobStep j.status j'.status = true ∧ j'.status = targetStatus u := by
  unfold applyUpdate at h
  by_cases hs : jobStep j.status (targetStatus u) = true
  · rw [if_pos hs] at h
    have hj' := Option.some.inj h
    cases u <;> rw [← hj'] <;> exact ⟨hs, rfl⟩
  · rw [if_neg hs] at h
    simp at h

theorem statusTrace_rank_lb (us : List JobUpdate) :
    ∀ (j : JobState) (tr : List JobStatus), statusTrace j us = some tr →
      ∀ b ∈ tr, jobRank j.status ≤ jobRank b := by
  induction us with
  | nil =>
    intro j tr h b hb
    have : tr = [j.status] := by simpa [statusTrace] using h.symm
    subst this
    simp at hb
    rw [hb]
  | cons u us ih =>
    intro j tr h b hb
    rw [statusTrace] at h
    cases ha : applyUpdate j u with
    | none => rw [ha] at h; simp at h
    | some j' =>
      rw [ha] at h
      have h' : (statusTrace j' us).map (fun t => j.status :: t) = some tr := h
      cases ht : statusTrace j' us with
      | none => rw [ht] at h'; simp at h'
      | some t =>
        rw [ht] at h'
        have htr : tr = j.status :: t := by simpa using h'.symm
        subst htr
        rcases List.mem_cons.mp hb with rfl | hb
        · exact Nat.le_refl _
        · have h1 := (applyUpdate_status ha).1
          have h2 := jobStep_rank_lt h1
          have h3 := ih j' t ht b hb
          omega

theorem statusTrace_pairwise (us : List JobUpdate) :
    ∀ (j : JobState) (tr : List JobStatus), statusTrace j us = some tr →
      tr.Pairwise (fun a b => jobRank a < jobRank b) := by
  induction us with
  | nil =>
    intro j tr h
    have : tr = [j.status] := by simpa [statusTrace] using h.symm
    subst this
    simp
  | cons u us ih =>
    intro j tr h
    rw [statusTrace] at h
    cases ha : applyUpdate j u with
    | none => rw [ha] at h; simp at h
    | some j' =>
      rw [ha] at h
      have h' : (statusTrace j' us).map (fun t => j.status :: t) = some tr := h
      cases ht : statusTrace j' us with
      | none => rw [ht] at h'; simp at h'
      | some t =>
        rw [ht] at h'
        have htr : tr = j.status :: t := by simpa using h'.symm
        subst htr
        refine List.pairwise_cons.mpr ⟨?_, ih j' t ht⟩
        intro b hb
        have h1 := jobStep_rank_lt (applyUpdate_status ha).1
        have h2 := statusTrace_rank_lb us j' t ht b hb
        omega

theorem runUpdates_error_inv (us : List JobUpdate) :
    ∀ (j : JobState), (j.error ≠ none → j.status = .failed) →
      ∀ j', runUpdates j us = some j' → (j'.error ≠ none → j'.status = .failed) := by
  induction us with
  | nil =>
    intro j hinv j' h
    have : j = j' := by simpa [runUpdates] using h
    subst this
    exact hinv
  | cons u us ih =>
    intro j hinv j' h
    rw [runUpdates] at h
    cases ha : applyUpdate j u with
    | none => rw [ha] at h; simp at h
    | some j₁ =>
      rw [ha] at h
      refine ih j₁ ?_ j' h
      have hstep := (applyUpdate_status ha).1
      unfold applyUpdate at ha
      by_cases hs : jobStep j.status (targetStatus u) = true
      · rw [if_pos hs] at ha
        have hj₁ := Option.some.inj ha
        cases u with
        | fail nid msg =>
          intro _
          rw [← hj₁]
        | start =>
          intro he
          rw [← hj₁] at he
          simp only at he
          have := hinv he
          rw [this] at hs
          simp [jobStep, targetStatus] at hs
        | complete r =>
          intro he
          rw [← hj₁] at he
          simp only at he
          have := hinv he
          rw [this] at hs
          simp [jobStep, targetStatus] at hs
        | cancel =>
          intro he
          rw [← hj₁] at he
          simp only at he
          have := hinv he
          rw [this] at hs
          simp [jobStep, targetStatus] at hs
      · rw [if_neg hs] at ha
        simp at ha

/-- C5: along every reachable sequence of job updates the status trace
never revisits a state, no transition leaves a terminal state (and every
allowed transition is `PENDING → RUNNING` or `RUNNING →` terminal), and
the structured error is non-null only in the `FAILED` state. -/
theorem c5_job_state_machine :
    (∀ (us : List JobUpdate) (tr : List JobStatus),
      statusTrace initialJob us = some tr → tr.Nodup) ∧
    (∀ s t : JobStatus, s.isTerminal = true → jobStep s t = false) ∧
    (∀ s t : JobStatus, jobStep s t = true →
      (s = .pending ∧ t = .running) ∨ (s = .running ∧ t.isTerminal = true)) ∧
    (∀ (us : List JobUpdate) (j : JobState), runUpdates initialJob us = some j →
      j.error ≠ none → j.status = .failed) := by
  refine ⟨?_, ?_, ?_, ?_⟩
  · intro us tr h
    have hp := statusTrace_pairwise us initialJob tr h
    exact hp.imp (fun hlt heq => by rw [heq] at hlt; exact Nat.lt_irrefl _ hlt)
  · intro s t hs
    cases s <;> cases t <;> simp_all [JobStatus.isTerminal, jobStep]
  · intro s t hst
    cases s <;> cases t <;> simp_all [JobStatus.isTerminal, jobStep]
  · intro us j h
    exact runUpdates_error_inv us initialJob (by simp [initialJob]) j h

/-- Witness for C5: the trace pending → running → failed is reachable,
nodup, and ends failed with the error set. -/
theorem c5_witness :
    ([JobStatus.pending, JobStatus.running, JobStatus.failed].Nodup) ∧
    jobStep JobStatus.completed JobStatus.running = false ∧
    ((JobStatus.pending = JobStatus.pending ∧ JobStatus.running = JobStatus.running) ∨
      (JobStatus.pending = JobStatus.running ∧ JobStatus.running.isTerminal = true)) ∧
    ({ status := JobStatus.failed, error := some ("B", "boom"), results := [] } : JobState).status
      = JobStatus.failed := by
  refine ⟨?_, ?_, ?_, ?_⟩
  · exact c5_job_state_machine.1 [JobUpdate.start, JobUpdate.fail "B" "boom"]
      [JobStatus.pending, JobStatus.running, JobStatus.failed] (by decide)
  · exact c5_job_state_machine.2.1 JobStatus.completed JobStatus.running (by decide)
  · exact c5_job_state_machine.2.2.1 JobStatus.pending JobStatus.running (by decide)
  · exact c5_job_state_machine.2.2.2 [JobUpdate.start, JobUpdate.fail "B" "boom"]
      { status := JobStatus.failed, error := some ("B", "boom"), results := [] }
      (by decide) (by simp)

/-! ## The executor -/

/-- The outcome of one node's `execute` body in a given run. -/
inductive NodeOutcome
  | success (out : NodeOutput)
  | failure (msg : String)
deriving Repr, DecidableEq

/-- Whether the node completed successfully. -/
def NodeOutcome.isSuccess : NodeOutcome → Bool
  | .success _ => true
  | .failure _ => false

/-- The output written on success (empty on failure). -/
def NodeOutcome.output : NodeOutcome → NodeOutput
  | .success o => o
  | .failure _ => []

/-- The outputs a batch writes into the context: every node of the batch
that completed successfully. -/
def batchResults (env : String → NodeOutcome) (b : List String) :
    List (String × NodeOutput) :=
  b.filterMap (fun x =>
    match env x with
    | .success o => some (x, o)
    | .failure _ => none)

/-- The first failure of the batch in program order, if any. -/
def batchFailure (env : String → NodeOutcome) (b : List String) :
    Option (String × String) :=
  b.findSome? (fun x =>
    match env x with
    | .failure m => some (x, m)
    | .success _ => none)

/-- Modelled from the spec: the executor's batch loop over the
accumulated context.  A batch runs whole — completed siblings of a failed
node are recorded — and no batch after a failing one is launched. -/
def runBatches (env : String → NodeOutcome) :
    List (List String) → List (String × NodeOutput) →
      List (String × NodeOutput) × Option (String × String)
  | [], acc => (acc, none)
  | b :: bs, acc =>
    match batchFailure env b with
    | some e => (acc ++ batchResults env b, some e)
    | none => runBatches env bs (acc ++ batchResults env b)

/-- The context contents at the moment batch `k` starts. -/
def contextAt (env : String → NodeOutcome) (bs : List (List String)) (k : Nat) :
    List (String × NodeOutput) :=
  (runBatches env (bs.take k) []).1

/-- How a run can be refused before any node executes. -/
inductive RunError
  | notValidated
  | definitionError (e : GraphError)
deriving Repr, DecidableEq

/-- Modelled from the spec: driving one job.  Execution is refused on an
unvalidated graph; otherwise the topological batches run in order and the
job ends `COMPLETED`, or `FAILED` carrying the first failing node's id
and message. -/
def executeGraph (g : Graph) (env : String → NodeOutcome) :
    Except RunError JobState :=
  if g.validated then
    match runBatches env (topological_batches g) [] with
    | (results, some e) => .ok { status := .failed, error := some e, results := results }
    | (results, none) => .ok { status := .completed, error := none, results := results }
  else .error .notValidated

/-- The successful outputs of a list of nodes. -/
def outputsOf (env : String → NodeOutcome) (xs : List String) :
    List (String × NodeOutput) :=
  xs.map (fun x => (x, (env x).output))

theorem batchFailure_eq_none {env : String → NodeOutcome} {b : List String}
    (h : ∀ x ∈ b, (env x).isSuccess = true) : batchFailure env b = none := by
  unfold batchFailure
  rw [List.findSome?_eq_none_iff]
  intro x hx
  cases he : env x with
  | success o => rfl
  | failure m =>
    have := h x hx
    rw [he] at this
    simp [NodeOutcome.isSuccess] at this

theorem batchResults_all_success {env : String → NodeOutcome} :
    ∀ {b : List String}, (∀ x ∈ b, (env x).isSuccess = true) →
      batchResults env b = outputsOf env b := by
  intro b
  induction b with
  | nil => intro _; rfl
  | cons x t ih =>
    intro h
    unfold batchResults outputsOf
    rw [List.filterMap_cons, List.map_cons]
    cases he : env x with
    | failure m =>
      have := h x (List.mem_cons_self x t)
      rw [he] at this
      simp [NodeOutcome.isSuccess] at this
    | success o =>
      have ht := ih (fun y hy => h y (List.mem_cons_of_mem x hy))
      unfold batchResults outputsOf at ht
      rw [ht]
      simp [NodeOutcome.output]

theorem runBatches_append_success {env : String → NodeOutcome} :
    ∀ (l₁ l₂ : List (List String)) (acc : List (String × NodeOutput)),
      (∀ b ∈ l₁, ∀ x ∈ b, (env x).isSuccess = true) →
      runBatches env (l₁ ++ l₂) acc
        = runBatches env l₂ (acc ++ outputsOf env l₁.flatten) := by
  intro l₁
  induction l₁ with
  | nil =>
    intro l₂ acc _
    simp [outputsOf]
  | cons b t ih =>
    intro l₂ acc h
    have hb : ∀ x ∈ b, (env x).isSuccess = true := h b (List.mem_cons_self b t)
    rw [List.cons_append, runBatches, batchFailure_eq_none hb]
    rw [ih l₂ _ (fun c hc => h c (List.mem_cons_of_mem b hc))]
    rw [batchResults_all_success hb]
    rw [List.flatten_cons]
    congr 1
    rw [List.append_assoc]
    congr 1
    unfold outputsOf
    rw [List.map_append]

theorem runBatches_all_success {env : String → NodeOutcome}
    (bs : List (List String)) (acc : List (String × NodeOutput))
    (h : ∀ b ∈ bs, ∀ x ∈ b, (env x).isSuccess = true) :
    runBatches env bs acc = (acc ++ outputsOf env bs.flatten, none) := by
  have := runBatches_append_success bs [] acc h
  rw [List.append_nil] at this
  rw [this]
  rfl

theorem findSome?_first_char {α β : Type} {f : α → Option β} :
    ∀ {l : List α} {e : β}, l.findSome? f = some e →
      ∃ l₁ x l₂, l = l₁ ++ x :: l₂ ∧ f x = some e ∧ ∀ y ∈ l₁, f y = none := by
  intro l
  induction l with
  | nil => intro e h; simp at h
  | cons a t ih =>
    intro e h
    rw [List.findSome?_cons] at h
    cases hf : f a with
    | some b =>
      rw [hf] at h
      have : b = e := by simpa using h
      subst this
      exact ⟨[], a, t, rfl, hf, by intro y hy; simp at hy⟩
    | none =>
      rw [hf] at h
      rcases ih h with ⟨l₁, x, l₂, hl, hx, hnone⟩
      refine ⟨a :: l₁, x, l₂, by rw [hl]; rfl, hx, ?_⟩
      intro y hy
      rcases List.mem_cons.mp hy with rfl | hy
      · exact hf
      · exact hnone y hy

theorem batchFailure_isSome {env : String → NodeOutcome} {b : List String}
    (h : ∃ x ∈ b, (env x).isSuccess = false) : ∃ e, batchFailure env b = some e := by
  rcases h with ⟨x, hx, hfail⟩
  cases hbf : batchFailure env b with
  | some e => exact ⟨e, rfl⟩
  | none =>
    exfalso
    unfold batchFailure at hbf
    rw [List.findSome?_eq_none_iff] at hbf
    have := hbf x hx
    cases he : env x with
    | success o => rw [he] at hfail; simp [NodeOutcome.isSuccess] at hfail
    | failure m => rw [he] at this; simp at this

theorem batchFailure_first {env : String → NodeOutcome} {b : List String}
    {x : String} {m : String} (h : batchFailure env b = some (x, m)) :
    env x = .failure m ∧
    ∃ l₁ l₂, b = l₁ ++ x :: l₂ ∧ ∀ y ∈ l₁, (env y).isSuccess = true := by
  unfold batchFailure at h
  rcases findSome?_first_char h with ⟨l₁, z, l₂, hl, hz, hnone⟩
  have hzx : env z = .failure m ∧ z = x := by
    cases he : env z with
    | success o => rw [he] at hz; simp at hz
    | failure m' =>
      rw [he] at hz
      have hpair : z = x ∧ m' = m := by simpa using hz
      exact ⟨by rw [hpair.2], hpair.1⟩
  rcases hzx with ⟨hez, rfl⟩
  refine ⟨hez, l₁, l₂, hl, ?_⟩
  intro y hy
  have := hnone y hy
  cases he : env y with
  | success o => rfl
  | failure m' => rw [he] at this; simp at this

theorem mem_keys_outputsOf {env : String → NodeOutcome} {xs : List String} {x : String} :
    x ∈ (outputsOf env xs).map Prod.fst ↔ x ∈ xs := by
  unfold outputsOf
  rw [List.map_map]
  simp

theorem mem_getD_of_mem_take_flatten {l : List (List String)} {x : String} {k : Nat}
    (h : x ∈ (l.take k).flatten) : ∃ j, j < k ∧ x ∈ l.getD j [] := by
  rcases List.mem_flatten.mp h with ⟨b, hb, hxb⟩
  rcases List.mem_iff_getElem.mp hb with ⟨j, hjlen, hbj⟩
  have hjk : j < k := by
    have := hjlen
    rw [List.length_take] at this
    omega
  have hjl : j < l.length := by
    have := hjlen
    rw [List.length_take] at this
    omega
  refine ⟨j, hjk, ?_⟩
  rw [List.getD_eq_getElem l [] hjl]
  have : (l.take k)[j] = l[j] := List.getElem_take l
  rw [this] at hbj
  rw [hbj]
  exact hxb

theorem mem_take_flatten_of_mem_getD {l : List (List String)} {x : String} {j k : Nat}
    (hjk : j < k) (h : x ∈ l.getD j []) : x ∈ (l.take k).flatten := by
  have hjl : j < l.length := by
    by_contra hbig
    rw [List.getD_eq_default l [] (by omega)] at h
    simp at h
  rw [List.getD_eq_getElem l [] hjl] at h
  have hjt : j < (l.take k).length := by
    rw [List.length_take]
    omega
  refine List.mem_flatten.mpr ⟨(l.take k)[j], List.getElem_mem hjt, ?_⟩
  have : (l.take k)[j] = l[j] := List.getElem_take l
  rw [this]
  exact h

theorem keys_batchResults_subset {env : String → NodeOutcome} {b : List String}
    {x : String} (h : x ∈ (batchResults env b).map Prod.fst) : x ∈ b := by
  rcases List.mem_map.mp h with ⟨pr, hpr, hfst⟩
  unfold batchResults at hpr
  rcases List.mem_filterMap.mp hpr with ⟨a, ha, hfa⟩
  cases he : env a with
  | success o =>
    rw [he] at hfa
    have : (a, o) = pr := by simpa using hfa
    rw [← this] at hfst
    rw [← hfst]
    exact ha
  | failure m => rw [he] at hfa; simp at hfa

/-! ## C2 -/

/-- C2: on a validated graph, if every node of the batches before `k`
succeeds and some node of batch `k` fails, the run ends in a `FAILED`
job whose error carries the first failing node of batch `k` in program
order, whose results retain exactly the outputs of the nodes completed
before or alongside the failure, and in which no node of any later batch
was executed (its key is absent from the results). -/
theorem c2_executor_failure_propagation (g : Graph) (env : String → NodeOutcome)
    (hnd : idsNodup g) (hcl : depsClosed g) (hac : Acyclic g) (hv : g.validated = true)
    (k : Nat) (hk : k < (topological_batches g).length)
    (hprev : ∀ j, j < k → ∀ x ∈ (topological_batches g).getD j [], (env x).isSuccess = true)
    (hfail : ∃ x ∈ (topological_batches g).getD k [], (env x).isSuccess = false) :
    ∃ jb, executeGraph g env = .ok jb ∧
      jb.status = .failed ∧
      (∃ x m l₁ l₂, jb.error = some (x, m) ∧ env x = .failure m ∧
        (topological_batches g).getD k [] = l₁ ++ x :: l₂ ∧
        ∀ y ∈ l₁, (env y).isSuccess = true) ∧
      (∀ x out, (∃ j, j ≤ k ∧ x ∈ (topological_batches g).getD j []) →
        env x = .success out → (x, out) ∈ jb.results) ∧
      (∀ j x, k < j → x ∈ (topological_batches g).getD j [] →
        x ∉ jb.results.map Prod.fst) := by
  have hflnd : (topological_batches g).flatten.Nodup :=
    ((batches_flatten_perm g (findStuck_eq_nil_of_acyclic g hnd hcl hac)).nodup_iff).mpr hnd
  set bs := topological_batches g with hbs
  have hsplit : bs = bs.take k ++ bs.getD k [] :: bs.drop (k + 1) := by
    conv_lhs => rw [← List.take_append_drop k bs]
    congr 1
    rw [List.getD_eq_getElem bs [] hk]
    exact List.drop_eq_getElem_cons hk
  have hprevall : ∀ b ∈ bs.take k, ∀ x ∈ b, (env x).isSuccess = true := by
    intro b hb x hx
    rcases List.mem_iff_getElem.mp hb with ⟨j, hjlen, hbj⟩
    have hjk : j < k := by
      have := hjlen
      rw [List.length_take] at this
      omega
    have hjl : j < bs.length := by
      have := hjlen
      rw [List.length_take] at this
      omega
    refine hprev j hjk x ?_
    rw [List.getD_eq_getElem bs [] hjl]
    have : (bs.take k)[j] = bs[j] := List.getElem_take bs
    rw [this] at hbj
    rw [← hbj] at hx
    exact hx
  obtain ⟨e, hbf⟩ := batchFailure_isSome hfail
  obtain ⟨x0, m0⟩ := e
  have hrun : runBatches env bs []
      = (outputsOf env (bs.take k).flatten ++ batchResults env (bs.getD k []),
          some (x0, m0)) := by
    conv_lhs => rw [hsplit]
    rw [runBatches_append_success _ _ _ hprevall]
    rw [runBatches]
    rw [hbf]
    rw [List.nil_append]
  have hexec : executeGraph g env
      = .ok { status := .failed, error := some (x0, m0),
              results := outputsOf env (bs.take k).flatten
                ++ batchResults env (bs.getD k []) } := by
    unfold executeGraph
    rw [if_pos hv]
    rw [← hbs, hrun]
  refine ⟨_, hexec, rfl, ?_, ?_, ?_⟩
  · obtain ⟨henv, l₁, l₂, hdec, hpre⟩ := batchFailure_first hbf
    exact ⟨x0, m0, l₁, l₂, rfl, henv, hdec, hpre⟩
  · intro x out hj henv
    rcases hj with ⟨j, hjk, hxj⟩
    rcases Nat.lt_or_ge j k with hlt | hge
    · refine List.mem_append.mpr (Or.inl ?_)
      have hxf : x ∈ (bs.take k).flatten := mem_take_flatten_of_mem_getD hlt hxj
      unfold outputsOf
      refine List.mem_map.mpr ⟨x, hxf, ?_⟩
      rw [henv]
      rfl
    · have hjeq : j = k := by omega
      subst hjeq
      refine List.mem_append.mpr (Or.inr ?_)
      unfold batchResults
      refine List.mem_filterMap.mpr ⟨x, hxj, ?_⟩
      rw [henv]
  · intro j x hkj hxj hmem
    simp only [List.map_append] at hmem
    rcases List.mem_append.mp hmem with h | h
    · have hxf : x ∈ (bs.take k).flatten := (mem_keys_outputsOf).mp h
      have := getD_index_lt_of_take hflnd hxj hxf
      omega
    · have hxk : x ∈ bs.getD k [] := keys_batchResults_subset h
      have := getD_index_lt_of_take hflnd hxj
        (mem_take_flatten_of_mem_getD (Nat.lt_succ_self k) hxk)
      omega

/-- A run in which `resize` fails and every other node succeeds. -/
def resizeFailsEnv : String → NodeOutcome :=
  fun s => if s = "resize" then .failure "boom" else .success [("ok", "1")]

/-- Witness for C2: on the validated pipeline with `resize` failing in
batch 1, the job fails carrying `resize`, retains `load`'s output, and
never executes `export`. -/
theorem c2_witness :
    ∃ jb, executeGraph pipelineValidated resizeFailsEnv = .ok jb ∧
      jb.status = .failed ∧
      (∃ x m l₁ l₂, jb.error = some (x, m) ∧ resizeFailsEnv x = .failure m ∧
        (topological_batches pipelineValidated).getD 1 [] = l₁ ++ x :: l₂ ∧
        ∀ y ∈ l₁, (resizeFailsEnv y).isSuccess = true) ∧
      (∀ x out, (∃ j, j ≤ 1 ∧ x ∈ (topological_batches pipelineValidated).getD j []) →
        resizeFailsEnv x = .success out → (x, out) ∈ jb.results) ∧
      (∀ j x, 1 < j → x ∈ (topological_batches pipelineValidated).getD j [] →
        x ∉ jb.results.map Prod.fst) :=
  c2_executor_failure_propagation pipelineValidated resizeFailsEnv
    (by decide) (by decide)
    (Acyclic_of_rank pipelineValidated pipelineRank (by decide))
    rfl 1 (by decide)
    (by
      intro j hj
      have hj0 : j = 0 := by omega
      subst hj0
      decide)
    (by decide)

/-! ## C8 -/

theorem take_all_success {env : String → NodeOutcome} {bs : List (List String)} {k : Nat}
    (hprev : ∀ j, j < k → ∀ x ∈ bs.getD j [], (env x).isSuccess = true) :
    ∀ b ∈ bs.take k, ∀ x ∈ b, (env x).isSuccess = true := by
  intro b hb x hx
  rcases List.mem_iff_getElem.mp hb with ⟨j, hjlen, hbj⟩
  have hjk : j < k := by
    have := hjlen
    rw [List.length_take] at this
    omega
  have hjl : j < bs.length := by
    have := hjlen
    rw [List.length_take] at this
    omega
  refine hprev j hjk x ?_
  rw [List.getD_eq_getElem bs [] hjl]
  have : (bs.take k)[j] = bs[j] := List.getElem_take bs
  rw [this] at hbj
  rw [← hbj] at hx
  exact hx

/-- C8: the wave barrier — at the moment batch `k` starts (every earlier
batch having completed successfully), the execution context already
holds an output entry for every dependency of every node of batch `k`,
so a node never observes a dependency's output before that dependency
completed and wrote to the context. -/
theorem c8_wave_barrier (g : Graph) (env : String → NodeOutcome)
    (hnd : idsNodup g) (k : Nat)
    (hprev : ∀ j, j < k → ∀ x ∈ (topological_batches g).getD j [],
      (env x).isSuccess = true) :
    ∀ x ∈ (topological_batches g).getD k [],
      ∀ d ∈ depsOf g x,
        d ∈ (contextAt env (topological_batches g) k).map Prod.fst := by
  intro x hx d hd
  have hctx : contextAt env (topological_batches g) k
      = outputsOf env ((topological_batches g).take k).flatten := by
    unfold contextAt
    rw [runBatches_all_success _ _ (take_all_success hprev)]
    rw [List.nil_append]
  rw [hctx]
  rw [mem_keys_outputsOf]
  exact batches_deps_in_take hnd hx d hd

/-- A run in which every node succeeds. -/
def allOkEnv : String → NodeOutcome := fun _ => .success [("ok", "1")]

/-- Witness for C8: at the start of the pipeline's third batch the
context holds an entry for `resize`, the dependency of `export`. -/
theorem c8_witness :
    "resize" ∈ (contextAt allOkEnv (topological_batches pipelineGraph) 2).map Prod.fst :=
  c8_wave_barrier pipelineGraph allOkEnv (by decide) 2
    (by
      intro j hj
      have : j = 0 ∨ j = 1 := by omega
      rcases this with rfl | rfl
      · decide
      · decide)
    "export" (by decide) "resize" (by decide)

/-! ## C6 -/

/-- C6: definition errors can arise only from `add_node` (duplicate id)
and `validate` (unknown dependency or cycle); the execution path never
produces a definition error — on a validated graph the run is accepted,
and on an unvalidated graph it is refused outright without executing. -/
theorem c6_definition_errors_confined (g : Graph) (env : String → NodeOutcome) :
    (g.validated = true → ∃ jb, executeGraph g env = .ok jb) ∧
    (g.validated = false → executeGraph g env = .error .notValidated) ∧
    (∀ e, executeGraph g env ≠ .error (.definitionError e)) ∧
    (∀ n err, add_node g n = .error err → err = .duplicateNode n.id) ∧
    (∀ err, validate g = .error err →
      (∃ a b, err = .unknownDependency a b) ∨ (∃ p, err = .cyclicDependency p)) := by
  have hexec : ∀ hv : g.validated = true, ∃ jb, executeGraph g env = .ok jb := by
    intro hv
    unfold executeGraph
    rw [if_pos hv]
    cases hr : runBatches env (topological_batches g) [] with
    | mk res err =>
      cases err with
      | some e => exact ⟨_, rfl⟩
      | none => exact ⟨_, rfl⟩
  refine ⟨hexec, ?_, ?_, ?_, ?_⟩
  · intro hvf
    unfold executeGraph
    rw [if_neg (by rw [hvf]; simp)]
  · intro e
    by_cases hv : g.validated = true
    · rcases hexec hv with ⟨jb, hjb⟩
      rw [hjb]
      simp
    · unfold executeGraph
      rw [if_neg hv]
      simp
  · intro n err h
    unfold add_node at h
    by_cases hdup : g.nodes.any (fun m => m.id = n.id)
    · rw [if_pos hdup] at h
      simpa using h.symm
    · rw [if_neg hdup] at h
      simp at h
  · intro err h
    unfold validate at h
    by_cases hv : g.validated
    · rw [if_pos hv] at h
      simp at h
    · rw [if_neg hv] at h
      cases hfu : findUnknownDep g with
      | some pr =>
        rw [hfu] at h
        cases pr with
        | mk a b =>
          refine Or.inl ⟨a, b, ?_⟩
          simpa using h.symm
      | none =>
        rw [hfu] at h
        by_cases hie : (findStuck g).isEmpty
        · rw [if_pos hie] at h
          simp at h
        · rw [if_neg hie] at h
          refine Or.inr ⟨extractCycle g (findStuck g), ?_⟩
          simpa using h.symm

/-- Witness for C6: the validated pipeline runs (no definition error can
surface), the unvalidated pipeline is refused, a duplicate `add_node` is
the source of `DuplicateNodeError`, and the cyclic graph's validate error
is a definition error of the cyclic kind. -/
theorem c6_witness :
    (∃ jb, executeGraph pipelineValidated allOkEnv = .ok jb) ∧
    executeGraph pipelineGraph allOkEnv = .error .notValidated ∧
    executeGraph pipelineValidated allOkEnv ≠ .error (.definitionError (.duplicateNode "load")) ∧
    (GraphError.duplicateNode "load" = .duplicateNode (Node.mk "load" []).id) ∧
    ((∃ a b, GraphError.cyclicDependency ["a", "c", "b"] = .unknownDependency a b) ∨
      (∃ p, GraphError.cyclicDependency ["a", "c", "b"] = .cyclicDependency p)) := by
  refine ⟨?_, ?_, ?_, ?_, ?_⟩
  · exact (c6_definition_errors_confined pipelineValidated allOkEnv).1 rfl
  · exact (c6_definition_errors_confined pipelineGraph allOkEnv).2.1 rfl
  · exact (c6_definition_errors_confined pipelineValidated allOkEnv).2.2.1
      (.duplicateNode "load")
  · exact (c6_definition_errors_confined pipelineGraph allOkEnv).2.2.2.1
      (Node.mk "load" []) (.duplicateNode "load") (by decide)
  · exact (c6_definition_errors_confined cyclicGraph allOkEnv).2.2.2.2
      (.cyclicDependency ["a", "c", "b"]) (by decide)

/-! ## C9 -/

/-- Modelled from the spec: the worklist computation of the subgraph
reachable from a start node along dependency edges.  `pending` holds the
nodes not yet visited; visiting a node records its id and enqueues its
dependencies. -/
def reachAux : List Node → List String → List String → List String
  | _, visited, [] => visited
  | pending, visited, x :: fr =>
    match h : pending.find? (fun n => n.id = x) with
    | some n => reachAux (pending.erase n) (x :: visited) (fr ++ n.dependencies)
    | none => reachAux pending visited fr
termination_by pending _ fr => (pending.length, fr.length)
decreasing_by
  · apply Prod.Lex.left
    have hm := List.mem_of_find?_eq_some h
    rw [List.length_erase_of_mem hm]
    have : pending.length ≠ 0 := by
      intro h0
      rw [List.length_eq_zero] at h0
      subst h0
      simp at hm
    omega
  · apply Prod.Lex.right
    simp

/-- The ids reachable from `s` along dependency edges. -/
def reachableFrom (g : Graph) (s : String) : List String := reachAux g.nodes [] [s]

/-- Modelled from the spec: the job record returned by submission. -/
structure SubmittedJob where
  status : JobStatus
  runNodeIds : List String
deriving Repr, DecidableEq

/-- Modelled from the spec: job submission returns a fresh `PENDING`
job; with a start-node override the run covers the subgraph reachable
from that node, otherwise the whole graph. -/
def submitJob (g : Graph) (startNode : Option String) : SubmittedJob :=
  { status := .pending,
    runNodeIds :=
      match startNode with
      | some s => reachableFrom g s
      | none => g.nodes.map Node.id }

theorem reachAux_visited_subset :
    ∀ (pending : List Node) (visited fr : List String),
      ∀ v ∈ visited, v ∈ reachAux pending visited fr := by
  intro pending visited fr
  induction pending, visited, fr using reachAux.induct with
  | case1 pending visited =>
    intro v hv
    rw [reachAux]
    exact hv
  | case2 pending visited x fr n hfind ih =>
    intro v hv
    rw [reachAux, hfind]
    exact ih v (List.mem_cons_of_mem x hv)
  | case3 pending visited x fr hfind ih =>
    intro v hv
    rw [reachAux, hfind]
    exact ih v hv

theorem reachAux_subset :
    ∀ (pending : List Node) (visited fr : List String),
      ∀ x ∈ reachAux pending visited fr, x ∈ visited ∨ x ∈ pending.map Node.id := by
  intro pending visited fr
  induction pending, visited, fr using reachAux.induct with
  | case1 pending visited =>
    intro x hx
    rw [reachAux] at hx
    exact Or.inl hx
  | case2 pending visited y fr n hfind ih =>
    intro x hx
    rw [reachAux, hfind] at hx
    rcases ih x hx with h | h
    · rcases List.mem_cons.mp h with rfl | h
      · have hn := List.mem_of_find?_eq_some hfind
        have hp : n.id = x := by simpa using List.find?_some hfind
        exact Or.inr (hp ▸ List.mem_map_of_mem Node.id hn)
      · exact Or.inl h
    · rcases List.mem_map.mp h with ⟨m, hm, rfl⟩
      exact Or.inr (List.mem_map_of_mem Node.id (List.mem_of_mem_erase hm))
  | case3 pending visited y fr hfind ih =>
    intro x hx
    rw [reachAux, hfind] at hx
    exact ih x hx

theorem reachAux_closed (g : Graph) (hnd : idsNodup g) (hcl : depsClosed g) :
    ∀ (pending : List Node) (visited fr : List String),
      (∀ n ∈ pending, n ∈ g.nodes) →
      (∀ v ∈ visited, ∀ d ∈ depsOf g v, d ∈ visited ∨ d ∈ fr) →
      (∀ m ∈ g.nodes, m ∈ pending ∨ m.id ∈ visited) →
      (∀ x ∈ fr, x ∈ graphIds g) →
      ∀ x ∈ reachAux pending visited fr, ∀ d ∈ depsOf g x,
        d ∈ reachAux pending visited fr := by
  intro pending visited fr
  induction pending, visited, fr using reachAux.induct with
  | case1 pending visited =>
    intro hp hA hC hD x hx d hd
    rw [reachAux] at hx ⊢
    rcases hA x hx d hd with h | h
    · exact h
    · simp at h
  | case2 pending visited y fr n hfind ih =>
    intro hp hA hC hD x hx d hd
    have hn := List.mem_of_find?_eq_some hfind
    have hny : n.id = y := by simpa using List.find?_some hfind
    have hng : n ∈ g.nodes := hp n hn
    rw [reachAux, hfind] at hx ⊢
    refine ih ?_ ?_ ?_ ?_ x hx d hd
    · intro m hm
      exact hp m (List.mem_of_mem_erase hm)
    · intro v hv e he
      rcases List.mem_cons.mp hv with rfl | hv
      · have : depsOf g v = n.dependencies := by
          rw [← hny]
          exact depsOf_mem_eq hnd hng
        rw [this] at he
        exact Or.inr (List.mem_append.mpr (Or.inr he))
      · rcases hA v hv e he with h | h
        · exact Or.inl (List.mem_cons_of_mem y h)
        · rcases List.mem_cons.mp h with rfl | h
          · exact Or.inl (List.mem_cons_self e visited)
          · exact Or.inr (List.mem_append.mpr (Or.inl h))
    · intro m hm
      rcases hC m hm with h | h
      · by_cases hmn : m = n
        · subst hmn
          refine Or.inr ?_
          rw [hny]
          exact List.mem_cons_self y visited
        · exact Or.inl ((List.mem_erase_of_ne hmn).mpr h)
      · exact Or.inr (List.mem_cons_of_mem y h)
    · intro z hz
      rcases List.mem_append.mp hz with h | h
      · exact hD z (List.mem_cons_of_mem y h)
      · exact hcl n hng z h
  | case3 pending visited y fr hfind ih =>
    intro hp hA hC hD x hx d hd
    rw [reachAux, hfind] at hx ⊢
    refine ih hp ?_ hC ?_ x hx d hd
    · intro v hv e he
      rcases hA v hv e he with h | h
      · exact Or.inl h
      · rcases List.mem_cons.mp h with rfl | h
        · have hy := hD e (List.mem_cons_self e fr)
          rcases List.mem_map.mp hy with ⟨m, hm, hmid⟩
          rcases hC m hm with hmem | hvis
          · exfalso
            rw [List.find?_eq_none] at hfind
            have := hfind m hmem
            simp [hmid] at this
          · exact Or.inl (hmid ▸ hvis)
        · exact Or.inr h
    · intro z hz
      exact hD z (List.mem_cons_of_mem y hz)

theorem reachAux_minimal (g : Graph) (hnd : idsNodup g) :
    ∀ (pending : List Node) (visited fr : List String) (T : List String),
      (∀ n ∈ pending, n ∈ g.nodes) →
      (∀ x ∈ T, ∀ d ∈ depsOf g x, d ∈ T) →
      (∀ v ∈ visited, v ∈ T) →
      (∀ x ∈ fr, x ∈ T) →
      ∀ x ∈ reachAux pending visited fr, x ∈ T := by
  intro pending visited fr
  induction pending, visited, fr using reachAux.induct with
  | case1 pending visited =>
    intro T hp hT hv hf x hx
    rw [reachAux] at hx
    exact hv x hx
  | case2 pending visited y fr n hfind ih =>
    intro T hp hT hv hf x hx
    rw [reachAux, hfind] at hx
    have hn := List.mem_of_find?_eq_some hfind
    have hny : n.id = y := by simpa using List.find?_some hfind
    have hyT : y ∈ T := hf y (List.mem_cons_self y fr)
    refine ih T ?_ hT ?_ ?_ x hx
    · intro m hm
      exact hp m (List.mem_of_mem_erase hm)
    · intro v hv'
      rcases List.mem_cons.mp hv' with rfl | hv'
      · exact hyT
      · exact hv v hv'
    · intro z hz
      rcases List.mem_append.mp hz with h | h
      · exact hf z (List.mem_cons_of_mem y h)
      · have : depsOf g y = n.dependencies := by
          rw [← hny]
          exact depsOf_mem_eq hnd (hp n hn)
        exact hT y hyT z (this ▸ h)
  | case3 pending visited y fr hfind ih =>
    intro T hp hT hv hf x hx
    rw [reachAux, hfind] at hx
    refine ih T hp hT hv ?_ x hx
    intro z hz
    exact hf z (List.mem_cons_of_mem y hz)

theorem reachableFrom_start_mem (g : Graph) {s : String} (hs : s ∈ graphIds g) :
    s ∈ reachableFrom g s := by
  rcases List.mem_map.mp hs with ⟨n, hn, hnid⟩
  have hfind : (g.nodes.find? (fun m => m.id = s)).isSome := by
    rw [List.find?_isSome]
    exact ⟨n, hn, by simpa using hnid⟩
  rcases Option.isSome_iff_exists.mp hfind with ⟨m, hm⟩
  have hstep : reachableFrom g s
      = reachAux (g.nodes.erase m) [s] ([] ++ m.dependencies) := by
    rw [reachableFrom, reachAux, hm]
  rw [hstep]
  exact reachAux_visited_subset _ _ _ s (List.mem_cons_self s [])

/-- C9: job submission always returns a fresh `PENDING` job; without an
override the run covers the whole graph, and with a start-node override
it covers exactly the subgraph reachable from that node: the start node
is in it, it stays inside the graph, it is closed under dependencies,
and it is contained in every dependency-closed set holding the start
node. -/
theorem c9_submit_pending_and_subgraph (g : Graph)
    (hnd : idsNodup g) (hcl : depsClosed g) :
    (∀ st, (submitJob g st).status = .pending) ∧
    ((submitJob g none).runNodeIds = graphIds g) ∧
    (∀ s, s ∈ graphIds g →
      s ∈ (submitJob g (some s)).runNodeIds ∧
      (∀ x ∈ (submitJob g (some s)).runNodeIds, x ∈ graphIds g) ∧
      (∀ x ∈ (submitJob g (some s)).runNodeIds, ∀ d ∈ depsOf g x,
        d ∈ (submitJob g (some s)).runNodeIds) ∧
      (∀ T : List String, (∀ x ∈ T, ∀ d ∈ depsOf g x, d ∈ T) → s ∈ T →
        ∀ x ∈ (submitJob g (some s)).runNodeIds, x ∈ T)) := by
  refine ⟨fun _ => rfl, rfl, ?_⟩
  intro s hs
  have hrun : (submitJob g (some s)).runNodeIds = reachableFrom g s := rfl
  rw [hrun]
  refine ⟨reachableFrom_start_mem g hs, ?_, ?_, ?_⟩
  · intro x hx
    rcases reachAux_subset g.nodes [] [s] x hx with h | h
    · simp at h
    · exact h
  · intro x hx d hd
    refine reachAux_closed g hnd hcl g.nodes [] [s] (fun _ h => h) ?_ ?_ ?_ x hx d hd
    · intro v hv
      simp at hv
    · intro m hm
      exact Or.inl hm
    · intro z hz
      rcases List.mem_cons.mp hz with rfl | hz
      · exact hs
      · simp at hz
  · intro T hT hsT x hx
    refine reachAux_minimal g hnd g.nodes [] [s] T (fun _ h => h) hT ?_ ?_ x hx
    · intro v hv
      simp at hv
    · intro z hz
      rcases List.mem_cons.mp hz with rfl | hz
      · exact hsT
      · simp at hz

/-- Witness for C9 on the pipeline with start node `export`. -/
theorem c9_witness :
    (∀ st, (submitJob pipelineGraph st).status = .pending) ∧
    ((submitJob pipelineGraph none).runNodeIds = graphIds pipelineGraph) ∧
    (("export" ∈ (submitJob pipelineGraph (some "export")).runNodeIds) ∧
      (∀ x ∈ (submitJob pipelineGraph (some "export")).runNodeIds,
        x ∈ graphIds pipelineGraph) ∧
      (∀ x ∈ (submitJob pipelineGraph (some "export")).runNodeIds,
        ∀ d ∈ depsOf pipelineGraph x,
          d ∈ (submitJob pipelineGraph (some "export")).runNodeIds) ∧
      (∀ T : List String, (∀ x ∈ T, ∀ d ∈ depsOf pipelineGraph x, d ∈ T) → "export" ∈ T →
        ∀ x ∈ (submitJob pipelineGraph (some "export")).runNodeIds, x ∈ T)) := by
  have h := c9_submit_pending_and_subgraph pipelineGraph (by decide) (by decide)
  exact ⟨h.1, h.2.1, h.2.2 "export" (by decide)⟩

end GraphCap

